import Mathlib

/-!
Shallow embedding of `cpu-scheduling-simulation.py`: the `Job` record, the
`Scheduler` state machine shared by the four dispatch policies
(FCFS, SJF, SRTN, RR), the per-tick loop of `Scheduler.run`, and the
`PerformanceMetric` computation.

Modelling choices:
* Python's `math.inf` sentinel for `Job.finished_at` is modelled by
  `⊤ : WithTop ℤ`.
* Python exceptions (the `ZeroDivisionError` raised by the float divisions in
  `Scheduler.get_performance` when `time = 0` or `total_jobs = 0`) are
  modelled by `Option`: `none` means the call raises.
* The unbounded `while` loop of `Scheduler.run` is modelled by the
  fuel-indexed `Scheduler.run_fuel`; `none` means the fuel ran out before the
  loop guard `len(finished_jobs) != total_jobs` became false.
* Python `min(queue, key=...)` returns the first element attaining the
  minimal key; it is modelled by `pyMin`.  Python `list.remove` removes the
  first matching element; it is modelled by `List.erase`.
-/

namespace CpuSched

/-- Translation of class `Job` (`cpu-scheduling-simulation.py` lines 7-34).
`finished_at = ⊤` models the `math.inf` sentinel set in `__init__`. -/
structure Job where
  id : ℤ
  submitted_at : ℤ
  duration : ℤ
  currentDuration : ℤ
  finished_at : WithTop ℤ
deriving DecidableEq

/-- `Job.__init__(id, submitted_at, duration)`: `currentDuration` starts at
`duration` and `finished_at` at `math.inf`. -/
def Job.create (id submitted_at duration : ℤ) : Job :=
  { id := id, submitted_at := submitted_at, duration := duration,
    currentDuration := duration, finished_at := ⊤ }

/-- `Job.is_finished`: `self.currentDuration <= 0`. -/
def Job.is_finished (j : Job) : Bool := j.currentDuration ≤ 0

/-- `Job.finish(time)`: stamp the completion time. -/
def Job.finish (j : Job) (time : ℤ) : Job :=
  { j with finished_at := (time : WithTop ℤ) }

/-- `Job.getTurnaround`: `finished_at - submitted_at`; subtracting a finite
number from `math.inf` leaves `math.inf`, i.e. `⊤` maps to `⊤`. -/
def Job.getTurnaround (j : Job) : WithTop ℤ :=
  j.finished_at.map (fun t => t - j.submitted_at)

/-- `Job.work`: one tick of service. -/
def Job.work (j : Job) : Job :=
  { j with currentDuration := j.currentDuration - 1 }

/-- Translation of class `PerformanceMetric` (lines 38-46). -/
structure PerformanceMetric where
  throughput : ℚ
  turnaround : WithTop ℚ
  context_switches : ℕ
deriving DecidableEq

/-- The mutable fields of class `Scheduler` (lines 50-60). -/
structure State where
  unfinished_jobs : List Job
  queue : List Job
  current_job : Option Job
  finished_jobs : List Job
  total_jobs : ℕ
  time : ℤ
  total_context_switches : ℕ
  added_jobs : Bool
deriving DecidableEq

/-- `Scheduler.__init__(jobs)` (lines 51-60): no validation of any kind is
performed on `jobs`. -/
def Scheduler.init (jobs : List Job) : State :=
  { unfinished_jobs := jobs, queue := [], current_job := none,
    finished_jobs := [], total_jobs := jobs.length, time := 0,
    total_context_switches := 0, added_jobs := false }

/-- `Scheduler.get_ready_jobs` (lines 63-70): admit every unfinished job whose
`submitted_at <= time`, preserving input order; set `added_jobs` when the
admitted batch is non-empty. -/
def Scheduler.get_ready_jobs (s : State) : State :=
  let ready := s.unfinished_jobs.filter (fun j => j.submitted_at ≤ s.time)
  { s with added_jobs := if ready.isEmpty then s.added_jobs else true,
           unfinished_jobs := s.unfinished_jobs.filter (fun j => s.time < j.submitted_at),
           queue := s.queue ++ ready }

/-- `Scheduler.work` (lines 73-84): decrement the running job, then retire it
if `is_finished`, stamping `finished_at` with the current tick. -/
def Scheduler.work (s : State) : State :=
  match s.current_job with
  | none => s
  | some j =>
      let j2 := j.work
      if j2.is_finished then
        { s with finished_jobs := s.finished_jobs ++ [j2.finish s.time],
                 current_job := none }
      else { s with current_job := some j2 }

/-- Python `min(l, key=k)` on the non-empty list `a :: t`: the first element
attaining the minimal key (ties keep the earlier element). -/
def pyMin (key : Job → ℤ) : Job → List Job → Job
  | a, [] => a
  | a, b :: t =>
      let m := pyMin key b t
      if key m < key a then m else a

/-- `FCFS.context_switch` (lines 124-129). -/
def FCFS.context_switch (s : State) : State :=
  match s.queue with
  | [] => s
  | a :: t =>
      match s.current_job with
      | none => { s with current_job := some a, queue := t,
                         total_context_switches := s.total_context_switches + 1 }
      | some _ => s

/-- `SJF.context_switch` (lines 141-148): `min(queue, key=duration)` then
`queue.remove(shortest_job)`. -/
def SJF.context_switch (s : State) : State :=
  match s.queue with
  | [] => s
  | a :: t =>
      match s.current_job with
      | none =>
          let shortest_job := pyMin Job.duration a t
          { s with queue := (a :: t).erase shortest_job,
                   current_job := some shortest_job,
                   total_context_switches := s.total_context_switches + 1 }
      | some _ => s

/-- `SRTN.context_switch` (lines 160-177): select by minimal
`currentDuration`; preempt on a strictly smaller remaining time; on
`>= ∧ added_jobs` only bump the context-switch counter. -/
def SRTN.context_switch (s : State) : State :=
  match s.queue with
  | [] => s
  | a :: t =>
      let m := pyMin Job.currentDuration a t
      match s.current_job with
      | none =>
          { s with queue := (a :: t).erase m, current_job := some m,
                   total_context_switches := s.total_context_switches + 1 }
      | some c =>
          if m.currentDuration < c.currentDuration then
            { s with queue := ((a :: t).erase m) ++ [c], current_job := some m,
                     total_context_switches := s.total_context_switches + 1 }
          else if c.currentDuration ≤ m.currentDuration ∧ s.added_jobs = true then
            { s with total_context_switches := s.total_context_switches + 1 }
          else s

/-- `RR.context_switch` (lines 189-194): count a switch unconditionally, then
requeue the running job at the tail and pop the head of the queue. -/
def RR.context_switch (s : State) : State :=
  let s1 := { s with total_context_switches := s.total_context_switches + 1 }
  match s1.queue with
  | [] => s1
  | a :: t =>
      match s1.current_job with
      | none => { s1 with queue := t, current_job := some a }
      | some c => { s1 with queue := t ++ [c], current_job := some a }

/-- The closed family of dispatch policies of the repository. -/
inductive Policy
  | fcfs
  | sjf
  | srtn
  | rr
deriving DecidableEq

/-- Dispatch on the policy tag. -/
def Policy.context_switch : Policy → State → State
  | .fcfs => FCFS.context_switch
  | .sjf => SJF.context_switch
  | .srtn => SRTN.context_switch
  | .rr => RR.context_switch

/-- One iteration of the `while` loop in `Scheduler.run` (lines 105-110):
`get_ready_jobs(); work(); context_switch(); time += 1; added_jobs = False`. -/
def Scheduler.step (p : Policy) (s : State) : State :=
  let s3 := p.context_switch (Scheduler.work (Scheduler.get_ready_jobs s))
  { s3 with time := s3.time + 1, added_jobs := false }

/-- Iterated loop body, used to speak about the state after `n` ticks. -/
def Scheduler.step_n (p : Policy) : ℕ → State → State
  | 0, s => s
  | n + 1, s => Scheduler.step_n p n (Scheduler.step p s)

/-- Fuel-indexed `Scheduler.run` loop (lines 101-112): stop as soon as
`len(finished_jobs) = total_jobs`; `none` means the fuel was insufficient. -/
def Scheduler.run_fuel (p : Policy) : ℕ → State → Option State
  | 0, s => if s.finished_jobs.length = s.total_jobs then some s else none
  | n + 1, s =>
      if s.finished_jobs.length = s.total_jobs then some s
      else Scheduler.run_fuel p n (Scheduler.step p s)

/-- `Scheduler.get_performance` (lines 95-98): both divisions are Python
float divisions; `time = 0` or `total_jobs = 0` raises `ZeroDivisionError`,
modelled as `none`. -/
def Scheduler.get_performance (s : State) : Option PerformanceMetric :=
  if s.time = 0 ∨ s.total_jobs = 0 then none
  else
    some { throughput := (s.total_jobs : ℚ) / (s.time : ℚ),
           turnaround := WithTop.map (fun z : ℤ => (z : ℚ) / (s.total_jobs : ℚ))
             ((s.finished_jobs.map Job.getTurnaround).sum),
           context_switches := s.total_context_switches }

/-- Build the job list handed to a `Scheduler` from raw
`(id, submitted_at, duration)` records, as `Simulation.read_data` does. -/
def mk_jobs (specs : List (ℤ × ℤ × ℤ)) : List Job :=
  specs.map (fun x => Job.create x.1 x.2.1 x.2.2)



open Scheduler

/-! ### Field bookkeeping lemmas for the loop phases -/

@[simp] theorem get_ready_time (s : State) : (get_ready_jobs s).time = s.time := rfl

@[simp] theorem get_ready_tcs (s : State) :
    (get_ready_jobs s).total_context_switches = s.total_context_switches := rfl

@[simp] theorem get_ready_finished (s : State) :
    (get_ready_jobs s).finished_jobs = s.finished_jobs := rfl

@[simp] theorem get_ready_total (s : State) :
    (get_ready_jobs s).total_jobs = s.total_jobs := rfl

@[simp] theorem get_ready_current (s : State) :
    (get_ready_jobs s).current_job = s.current_job := rfl

@[simp] theorem work_time (s : State) : (Scheduler.work s).time = s.time := by
  unfold Scheduler.work
  repeat' first | split | (dsimp only)

@[simp] theorem work_tcs (s : State) :
    (Scheduler.work s).total_context_switches = s.total_context_switches := by
  unfold Scheduler.work
  repeat' first | split | (dsimp only)

@[simp] theorem work_queue (s : State) : (Scheduler.work s).queue = s.queue := by
  unfold Scheduler.work
  repeat' first | split | (dsimp only)

@[simp] theorem work_unfinished (s : State) :
    (Scheduler.work s).unfinished_jobs = s.unfinished_jobs := by
  unfold Scheduler.work
  repeat' first | split | (dsimp only)

@[simp] theorem work_total (s : State) : (Scheduler.work s).total_jobs = s.total_jobs := by
  unfold Scheduler.work
  repeat' first | split | (dsimp only)

@[simp] theorem work_added (s : State) : (Scheduler.work s).added_jobs = s.added_jobs := by
  unfold Scheduler.work
  repeat' first | split | (dsimp only)

@[simp] theorem cs_time (p : Policy) (s : State) : (p.context_switch s).time = s.time := by
  cases p <;>
    unfold Policy.context_switch FCFS.context_switch SJF.context_switch
      SRTN.context_switch RR.context_switch <;>
    repeat' first | split | (dsimp only)

@[simp] theorem cs_finished (p : Policy) (s : State) :
    (p.context_switch s).finished_jobs = s.finished_jobs := by
  cases p <;>
    unfold Policy.context_switch FCFS.context_switch SJF.context_switch
      SRTN.context_switch RR.context_switch <;>
    repeat' first | split | (dsimp only)

@[simp] theorem cs_unfinished (p : Policy) (s : State) :
    (p.context_switch s).unfinished_jobs = s.unfinished_jobs := by
  cases p <;>
    unfold Policy.context_switch FCFS.context_switch SJF.context_switch
      SRTN.context_switch RR.context_switch <;>
    repeat' first | split | (dsimp only)

@[simp] theorem cs_total (p : Policy) (s : State) :
    (p.context_switch s).total_jobs = s.total_jobs := by
  cases p <;>
    unfold Policy.context_switch FCFS.context_switch SJF.context_switch
      SRTN.context_switch RR.context_switch <;>
    repeat' first | split | (dsimp only)

@[simp] theorem cs_added (p : Policy) (s : State) :
    (p.context_switch s).added_jobs = s.added_jobs := by
  cases p <;>
    unfold Policy.context_switch FCFS.context_switch SJF.context_switch
      SRTN.context_switch RR.context_switch <;>
    repeat' first | split | (dsimp only)

@[simp] theorem step_time (p : Policy) (s : State) :
    (Scheduler.step p s).time = s.time + 1 := by
  unfold Scheduler.step; simp

@[simp] theorem step_total (p : Policy) (s : State) :
    (Scheduler.step p s).total_jobs = s.total_jobs := by
  unfold Scheduler.step; simp

@[simp] theorem step_added (p : Policy) (s : State) :
    (Scheduler.step p s).added_jobs = false := rfl

/-- The loop body preserves any invariant that survives every iteration. -/
theorem run_fuel_preserves (p : Policy) (P : State → Prop)
    (hstep : ∀ s, P s → P (Scheduler.step p s)) :
    ∀ (n : ℕ) (s s' : State), P s → Scheduler.run_fuel p n s = some s' → P s' := by
  intro n
  induction n with
  | zero =>
      intro s s' hP h
      unfold Scheduler.run_fuel at h
      by_cases hg : s.finished_jobs.length = s.total_jobs
      · simp [hg] at h; exact h ▸ hP
      · simp [hg] at h
  | succ n ih =>
      intro s s' hP h
      unfold Scheduler.run_fuel at h
      by_cases hg : s.finished_jobs.length = s.total_jobs
      · simp [hg] at h; exact h ▸ hP
      · simp [hg] at h
        exact ih _ _ (hstep s hP) h

/-- Extra fuel does not change the result of a completed run. -/
theorem run_fuel_mono (p : Policy) :
    ∀ (n m : ℕ) (s s' : State), Scheduler.run_fuel p n s = some s' → n ≤ m →
      Scheduler.run_fuel p m s = some s' := by
  intro n
  induction n with
  | zero =>
      intro m s s' h _
      unfold Scheduler.run_fuel at h
      by_cases hg : s.finished_jobs.length = s.total_jobs
      · simp [hg] at h
        subst h
        cases m <;> simp [Scheduler.run_fuel, hg]
      · simp [hg] at h
  | succ n ih =>
      intro m s s' h hle
      unfold Scheduler.run_fuel at h
      by_cases hg : s.finished_jobs.length = s.total_jobs
      · simp [hg] at h
        subst h
        cases m <;> simp [Scheduler.run_fuel, hg]
      · simp [hg] at h
        cases m with
        | zero => omega
        | succ m =>
            have := ih m _ _ h (by omega)
            simp [Scheduler.run_fuel, hg, this]

/-! ### Claim C10: unfinished jobs carry the `math.inf` sentinel -/

/-- C10: a freshly created `Job` has `finished_at = math.inf` (modelled `⊤`),
`getTurnaround` on it returns `math.inf` rather than raising, `work` never
touches `finished_at`, and only after `finish(time)` does `getTurnaround`
return the finite value `time - submitted_at`. -/
theorem job_sentinel_turnaround (i sub dur t : ℤ) (j : Job) :
    (Job.create i sub dur).finished_at = ⊤ ∧
    (Job.create i sub dur).getTurnaround = ⊤ ∧
    (Job.work j).finished_at = j.finished_at ∧
    (Job.finish j t).getTurnaround = ((t - j.submitted_at : ℤ) : WithTop ℤ) :=
  ⟨rfl, rfl, rfl, rfl⟩

/-! ### Claim C9: FCFS and SJF are non-preemptive -/

/-- C9: under FCFS and SJF a running job is never displaced or requeued:
whenever a job occupies the running slot, `context_switch` leaves the whole
state unchanged; and the dispatch step never changes the running slot except
by filling an empty one. -/
theorem fcfs_sjf_nonpreemptive (p : Policy)
    (hp : p = Policy.fcfs ∨ p = Policy.sjf) :
    (∀ (s : State) (c : Job), s.current_job = some c → p.context_switch s = s) ∧
    (∀ s : State, (p.context_switch s).current_job = s.current_job ∨
      s.current_job = none) := by
  rcases hp with h | h <;> subst h <;> constructor
  · intro s c hc
    unfold Policy.context_switch FCFS.context_switch
    cases hq : s.queue <;> simp [hq, hc]
  · intro s
    unfold Policy.context_switch FCFS.context_switch
    cases hq : s.queue <;> cases hc : s.current_job <;> simp [hq, hc]
  · intro s c hc
    unfold Policy.context_switch SJF.context_switch
    cases hq : s.queue <;> simp [hq, hc]
  · intro s
    unfold Policy.context_switch SJF.context_switch
    cases hq : s.queue <;> cases hc : s.current_job <;> simp [hq, hc]

/-- Witness for `fcfs_sjf_nonpreemptive` at a concrete running state. -/
theorem fcfs_sjf_nonpreemptive_witness :
    Policy.context_switch Policy.fcfs
        { unfinished_jobs := [], queue := [Job.create 2 0 5],
          current_job := some (Job.create 1 0 3), finished_jobs := [],
          total_jobs := 2, time := 1, total_context_switches := 1,
          added_jobs := false }
      = { unfinished_jobs := [], queue := [Job.create 2 0 5],
          current_job := some (Job.create 1 0 3), finished_jobs := [],
          total_jobs := 2, time := 1, total_context_switches := 1,
          added_jobs := false } :=
  (fcfs_sjf_nonpreemptive Policy.fcfs (Or.inl rfl)).1 _ (Job.create 1 0 3) rfl

/-! ### Claim C7: the SRTN arrival-triggered tie rule -/

/-- C7: in an SRTN dispatch with a running job and a non-empty queue, if the
minimal remaining duration in the queue is at least the running job's, then
with `added_jobs` set the counter is bumped and nothing else changes, and
with `added_jobs` clear the state is returned untouched. -/
theorem srtn_tie_break_rule (s : State) (c a : Job) (t : List Job)
    (hq : s.queue = a :: t) (hc : s.current_job = some c)
    (hmin : c.currentDuration ≤ (pyMin Job.currentDuration a t).currentDuration) :
    (s.added_jobs = true →
      SRTN.context_switch s =
        { s with total_context_switches := s.total_context_switches + 1 }) ∧
    (s.added_jobs = false → SRTN.context_switch s = s) := by
  have hnlt : ¬ (pyMin Job.currentDuration a t).currentDuration < c.currentDuration :=
    not_lt.mpr hmin
  constructor
  · intro hadd
    unfold SRTN.context_switch
    simp only [hq, hc]
    rw [if_neg hnlt, if_pos ⟨hmin, hadd⟩]
  · intro hadd
    unfold SRTN.context_switch
    simp only [hq, hc]
    rw [if_neg hnlt, if_neg (by simp [hadd])]

/-- Witness for `srtn_tie_break_rule` on a concrete state. -/
theorem srtn_tie_break_rule_witness :
    SRTN.context_switch
        { unfinished_jobs := [], queue := [Job.create 2 0 5],
          current_job := some (Job.create 1 0 3), finished_jobs := [],
          total_jobs := 2, time := 1, total_context_switches := 1,
          added_jobs := true }
      = { unfinished_jobs := [], queue := [Job.create 2 0 5],
          current_job := some (Job.create 1 0 3), finished_jobs := [],
          total_jobs := 2, time := 1, total_context_switches := 2,
          added_jobs := true } :=
  (srtn_tie_break_rule _ (Job.create 1 0 3) (Job.create 2 0 5) []
    rfl rfl (by decide)).1 rfl

/-! ### Claim C6: Round Robin counts one switch per tick -/

/-- `RR.context_switch` increments the counter before looking at the queue. -/
theorem rr_cs_tcs (s : State) :
    (RR.context_switch s).total_context_switches = s.total_context_switches + 1 := by
  unfold RR.context_switch
  repeat' first | split | (dsimp only)

/-- Every Round Robin loop iteration bumps the counter by exactly one. -/
theorem step_rr_tcs (s : State) :
    (Scheduler.step Policy.rr s).total_context_switches
      = s.total_context_switches + 1 := by
  unfold Scheduler.step
  dsimp only
  rw [show Policy.context_switch Policy.rr = RR.context_switch from rfl]
  rw [rr_cs_tcs, work_tcs, get_ready_tcs]

/-- C6: Round Robin counts exactly one context switch on every tick,
unconditionally, so at the end of any completed run the context-switch count
equals the tick count. -/
theorem rr_one_switch_per_tick :
    (∀ s : State, (RR.context_switch s).total_context_switches
        = s.total_context_switches + 1) ∧
    (∀ (specs : List (ℤ × ℤ × ℤ)) (n : ℕ) (s' : State),
      Scheduler.run_fuel Policy.rr n (Scheduler.init (mk_jobs specs)) = some s' →
      (s'.total_context_switches : ℤ) = s'.time) := by
  refine ⟨rr_cs_tcs, ?_⟩
  intro specs n s' hrun
  have hstep : ∀ s : State, ((s.total_context_switches : ℤ) = s.time) →
      (((Scheduler.step Policy.rr s).total_context_switches : ℤ)
        = (Scheduler.step Policy.rr s).time) := by
    intro s h
    rw [step_rr_tcs, step_time]
    push_cast
    omega
  exact run_fuel_preserves Policy.rr _ hstep n _ s' (by simp [Scheduler.init]) hrun

/-- Witness for `rr_one_switch_per_tick` on the staggered two-job input. -/
theorem rr_one_switch_per_tick_witness :
    Scheduler.run_fuel Policy.rr 13 (Scheduler.init (mk_jobs [(1, 0, 10), (2, 1, 2)]))
        = some (Scheduler.step_n Policy.rr 13
            (Scheduler.init (mk_jobs [(1, 0, 10), (2, 1, 2)]))) ∧
    ((Scheduler.step_n Policy.rr 13
        (Scheduler.init (mk_jobs [(1, 0, 10), (2, 1, 2)]))).total_context_switches : ℤ)
      = (Scheduler.step_n Policy.rr 13
          (Scheduler.init (mk_jobs [(1, 0, 10), (2, 1, 2)]))).time :=
  ⟨by decide, rr_one_switch_per_tick.2 [(1, 0, 10), (2, 1, 2)] 13 _ (by decide)⟩

/-- Evaluation rule for `get_performance` on a completed state with a finite
turnaround sum. -/
theorem get_performance_eq (s : State) (n : ℕ) (T S : ℤ)
    (htot : s.total_jobs = n) (hn : n ≠ 0) (ht : s.time = T) (hT : T ≠ 0)
    (hsum : (s.finished_jobs.map Job.getTurnaround).sum = (S : WithTop ℤ)) :
    Scheduler.get_performance s
      = some { throughput := (n : ℚ) / (T : ℚ),
               turnaround := (((S : ℚ) / (n : ℚ)) : WithTop ℚ),
               context_switches := s.total_context_switches } := by
  unfold Scheduler.get_performance
  rw [if_neg (by rw [ht, htot]; exact not_or.mpr ⟨hT, hn⟩)]
  rw [hsum, htot, ht]
  simp [WithTop.map_coe]

/-! ### Claim C1: the SRTN fixture (corrected numbers) -/

/-- C1 counterexample: on Job A (arrival 0, duration 10) and Job B (arrival 1,
duration 2) the SRTN run finishes B at tick 3 but finishes A at tick 12 (not
11), yielding mean turnaround 7 (not 6.5), so the claimed figures are false
on the code. -/
theorem srtn_fixture_counterexample :
    (Scheduler.run_fuel Policy.srtn 14
        (Scheduler.init (mk_jobs [(1, 0, 10), (2, 1, 2)]))).map
        (fun s => s.finished_jobs.map (fun j => (j.id, j.finished_at)))
      = some [(2, ((3 : ℤ) : WithTop ℤ)), (1, ((12 : ℤ) : WithTop ℤ))] ∧
    ((Scheduler.run_fuel Policy.srtn 14
        (Scheduler.init (mk_jobs [(1, 0, 10), (2, 1, 2)]))).bind
        Scheduler.get_performance).map PerformanceMetric.turnaround
      = some (((7 : ℚ) : WithTop ℚ)) ∧
    ((12 : ℤ) : WithTop ℤ) ≠ ((11 : ℤ) : WithTop ℤ) ∧
    (7 : ℚ) ≠ 13 / 2 := by
  have hrun : Scheduler.run_fuel Policy.srtn 14
      (Scheduler.init (mk_jobs [(1, 0, 10), (2, 1, 2)]))
      = some (Scheduler.step_n Policy.srtn 13
          (Scheduler.init (mk_jobs [(1, 0, 10), (2, 1, 2)]))) := by decide
  refine ⟨by rw [hrun]; decide, ?_, by decide, by norm_num⟩
  rw [hrun, Option.some_bind,
    get_performance_eq _ 2 13 14 (by decide) (by decide) (by decide) (by decide)
      (by decide)]
  norm_num

/-- C1 amended: SRTN preempts A during tick 1 (B running, A requeued), B
finishes at tick 3, A is resumed and finishes at tick 12; the mean turnaround
is `((12 - 0) + (3 - 1)) / 2 = 7`, strictly better than FCFS's
`((10 - 0) + (12 - 1)) / 2 = 10.5` on the same input. -/
theorem srtn_fixture_amended :
    ((Scheduler.step_n Policy.srtn 2
        (Scheduler.init (mk_jobs [(1, 0, 10), (2, 1, 2)]))).current_job.map Job.id
      = some 2) ∧
    ((Scheduler.step_n Policy.srtn 2
        (Scheduler.init (mk_jobs [(1, 0, 10), (2, 1, 2)]))).queue.map Job.id
      = [1]) ∧
    ((Scheduler.step_n Policy.srtn 4
        (Scheduler.init (mk_jobs [(1, 0, 10), (2, 1, 2)]))).current_job.map Job.id
      = some 1) ∧
    (Scheduler.run_fuel Policy.srtn 14
        (Scheduler.init (mk_jobs [(1, 0, 10), (2, 1, 2)]))).map
        (fun s => s.finished_jobs.map (fun j => (j.id, j.finished_at)))
      = some [(2, ((3 : ℤ) : WithTop ℤ)), (1, ((12 : ℤ) : WithTop ℤ))] ∧
    ((Scheduler.run_fuel Policy.srtn 14
        (Scheduler.init (mk_jobs [(1, 0, 10), (2, 1, 2)]))).bind
        Scheduler.get_performance).map PerformanceMetric.turnaround
      = some (((7 : ℚ) : WithTop ℚ)) ∧
    ((Scheduler.run_fuel Policy.fcfs 14
        (Scheduler.init (mk_jobs [(1, 0, 10), (2, 1, 2)]))).bind
        Scheduler.get_performance).map PerformanceMetric.turnaround
      = some (((21 / 2 : ℚ) : WithTop ℚ)) ∧
    (7 : ℚ) < 21 / 2 := by
  have hrun : Scheduler.run_fuel Policy.srtn 14
      (Scheduler.init (mk_jobs [(1, 0, 10), (2, 1, 2)]))
      = some (Scheduler.step_n Policy.srtn 13
          (Scheduler.init (mk_jobs [(1, 0, 10), (2, 1, 2)]))) := by decide
  have hrun2 : Scheduler.run_fuel Policy.fcfs 14
      (Scheduler.init (mk_jobs [(1, 0, 10), (2, 1, 2)]))
      = some (Scheduler.step_n Policy.fcfs 13
          (Scheduler.init (mk_jobs [(1, 0, 10), (2, 1, 2)]))) := by decide
  refine ⟨by decide, by decide, by decide, by rw [hrun]; decide, ?_, ?_, by norm_num⟩
  · rw [hrun, Option.some_bind,
      get_performance_eq _ 2 13 14 (by decide) (by decide) (by decide) (by decide)
        (by decide)]
    norm_num
  · rw [hrun2, Option.some_bind,
      get_performance_eq _ 2 13 21 (by decide) (by decide) (by decide) (by decide)
        (by decide)]
    norm_num

/-! ### Claim C2: no validation at construction (corrected) -/

/-- C2 counterexample: `Scheduler.__init__` performs no input validation.  A
job with duration 0 is accepted and its run completes normally with finite
metrics (no `InvalidInput`, no fail-fast); an empty job set is likewise
accepted at construction, the loop body never executes, and the failure is a
`ZeroDivisionError` inside `get_performance` (modelled `none`), not a
construction-time error. -/
theorem scheduler_no_construction_validation :
    (Scheduler.run_fuel Policy.fcfs 5 (Scheduler.init (mk_jobs [(1, 0, 0)]))).bind
        Scheduler.get_performance
      = some { throughput := (1 : ℚ) / 2, turnaround := (((1 : ℚ)) : WithTop ℚ),
               context_switches := 1 } ∧
    Scheduler.run_fuel Policy.fcfs 0 (Scheduler.init (mk_jobs []))
      = some (Scheduler.init (mk_jobs [])) ∧
    Scheduler.get_performance (Scheduler.init (mk_jobs [])) = none := by
  have hrun : Scheduler.run_fuel Policy.fcfs 5 (Scheduler.init (mk_jobs [(1, 0, 0)]))
      = some (Scheduler.step_n Policy.fcfs 2 (Scheduler.init (mk_jobs [(1, 0, 0)]))) := by
    decide
  refine ⟨?_, by decide, by decide⟩
  rw [hrun, Option.some_bind,
    get_performance_eq _ 1 2 1 (by decide) (by decide) (by decide) (by decide)
      (by decide)]
  have hcs : (Scheduler.step_n Policy.fcfs 2
      (Scheduler.init (mk_jobs [(1, 0, 0)]))).total_context_switches = 1 := by decide
  rw [hcs]
  norm_num

/-! ### Claim C5: conservation of jobs across the four sets -/

/-- The jobs sitting in the ready queue together with the running slot. -/
def qcJobs (s : State) : List Job := s.queue ++ s.current_job.toList

/-- Multiset of job ids across pending, ready, running and finished. -/
def allIds (s : State) : Multiset ℤ :=
  (((s.unfinished_jobs ++ s.queue ++ s.current_job.toList ++ s.finished_jobs).map
      Job.id : List ℤ) : Multiset ℤ)

/-- `pyMin` selects an element of the list it scans. -/
theorem pyMin_mem (key : Job → ℤ) : ∀ (t : List Job) (a : Job), pyMin key a t ∈ a :: t := by
  intro t
  induction t with
  | nil => intro a; simp [pyMin]
  | cons b t ih =>
      intro a
      unfold pyMin
      dsimp only
      split
      · exact List.mem_cons_of_mem a (ih b)
      · exact List.mem_cons_self a (b :: t)

/-- Every dispatch policy only permutes the jobs held by the ready queue and
the running slot. -/
theorem cs_qc_multiset (p : Policy) (s : State) :
    ((qcJobs (p.context_switch s) : List Job) : Multiset Job)
      = ((qcJobs s : List Job) : Multiset Job) := by
  rw [Multiset.coe_eq_coe]
  cases p <;>
    unfold Policy.context_switch FCFS.context_switch SJF.context_switch
      SRTN.context_switch RR.context_switch <;>
    cases hq : s.queue <;> cases hc : s.current_job <;>
    simp only [qcJobs, hq, hc, Option.toList_some, Option.toList_none,
      List.append_nil] <;>
    try rfl
  case fcfs.cons.none a t =>
    exact List.perm_append_singleton a t
  case sjf.cons.none a t =>
    exact (List.perm_append_singleton _ _).trans
      (List.perm_cons_erase (pyMin_mem Job.duration t a)).symm
  case srtn.cons.none a t =>
    exact (List.perm_append_singleton _ _).trans
      (List.perm_cons_erase (pyMin_mem Job.currentDuration t a)).symm
  case srtn.cons.some a t c =>
    split
    · refine List.perm_append_comm.trans ?_
      exact (List.perm_cons_erase (pyMin_mem Job.currentDuration t a)).symm.append_right
        [c]
    · split
      · simp only [hq, hc, Option.toList_some]
        exact List.Perm.refl _
      · simp only [hq, hc, Option.toList_some]
        exact List.Perm.refl _
  case rr.cons.none a t => exact List.perm_append_singleton a t
  case rr.cons.some a t c => exact List.perm_append_comm

/-- Bool-level complement of the admission predicate. -/
theorem admission_filter_split (s : State) :
    (fun j : Job => decide (s.time < j.submitted_at))
      = (fun j : Job => ! decide (j.submitted_at ≤ s.time)) := by
  funext j
  rw [← decide_not, decide_eq_decide]
  exact not_le.symm

/-- Splitting a list by a Bool predicate and its complement is a permutation. -/
theorem filter_split_perm (pr : Job → Bool) (l : List Job) :
    List.Perm (l.filter pr ++ l.filter (fun x => ! pr x)) l := by
  induction l with
  | nil => exact List.Perm.refl _
  | cons a l ih =>
      by_cases h : pr a = true
      · simpa [List.filter_cons, h] using ih.cons a
      · simp only [List.filter_cons, h, if_false]
        simp only [Bool.not_eq_true] at h
        simp only [h, Bool.not_false, if_true]
        exact List.perm_middle.trans (ih.cons a)

/-- The two admission filters split `unfinished_jobs` without loss. -/
theorem admission_ids_split (s : State) :
    (((s.unfinished_jobs.filter (fun j => j.submitted_at ≤ s.time)).map Job.id :
        List ℤ) : Multiset ℤ)
      + ((s.unfinished_jobs.filter (fun j => s.time < j.submitted_at)).map Job.id :
        List ℤ)
      = ((s.unfinished_jobs.map Job.id : List ℤ) : Multiset ℤ) := by
  rw [Multiset.coe_add, Multiset.coe_eq_coe, ← List.map_append]
  refine List.Perm.map Job.id ?_
  rw [admission_filter_split]
  exact filter_split_perm _ _

/-- Admission preserves the id multiset. -/
theorem get_ready_allIds (s : State) :
    allIds (Scheduler.get_ready_jobs s) = allIds s := by
  unfold allIds Scheduler.get_ready_jobs
  dsimp only
  simp only [List.map_append, ← Multiset.coe_add]
  rw [← admission_ids_split s]
  abel

/-- `Scheduler.work` preserves the id multiset: retirement moves the running
job (ids unchanged by `work`/`finish`) into `finished_jobs`. -/
theorem work_allIds (s : State) : allIds (Scheduler.work s) = allIds s := by
  unfold allIds Scheduler.work
  cases hc : s.current_job
  · simp [hc]
  case some j =>
    dsimp only
    split
    · simp only [Option.toList_none, Option.toList_some, List.map_append,
        List.map_cons, List.map_nil, ← Multiset.coe_add]
      rw [show ((Job.work j).finish s.time).id = j.id from rfl]
      abel
    · simp only [Option.toList_some, List.map_append, List.map_cons,
        List.map_nil, ← Multiset.coe_add]
      rw [show (Job.work j).id = j.id from rfl]

/-- Regrouping of `allIds` around the queue/running pair. -/
theorem allIds_decomp (s : State) :
    allIds s = ((s.unfinished_jobs.map Job.id : List ℤ) : Multiset ℤ)
      + (((qcJobs s).map Job.id : List ℤ) : Multiset ℤ)
      + ((s.finished_jobs.map Job.id : List ℤ) : Multiset ℤ) := by
  unfold allIds qcJobs
  simp only [List.map_append, ← Multiset.coe_add]
  abel

/-- Dispatch preserves the id multiset. -/
theorem cs_allIds (p : Policy) (s : State) : allIds (p.context_switch s) = allIds s := by
  rw [allIds_decomp, allIds_decomp, cs_unfinished, cs_finished]
  have h : (((qcJobs (p.context_switch s)).map Job.id : List ℤ) : Multiset ℤ)
      = (((qcJobs s).map Job.id : List ℤ) : Multiset ℤ) := by
    rw [← Multiset.map_coe, ← Multiset.map_coe, cs_qc_multiset]
  rw [h]

/-- One loop iteration preserves the id multiset. -/
theorem step_allIds (p : Policy) (s : State) : allIds (Scheduler.step p s) = allIds s := by
  unfold Scheduler.step
  dsimp only
  rw [show allIds { p.context_switch (Scheduler.work (Scheduler.get_ready_jobs s)) with
        time := (p.context_switch (Scheduler.work (Scheduler.get_ready_jobs s))).time + 1,
        added_jobs := false }
      = allIds (p.context_switch (Scheduler.work (Scheduler.get_ready_jobs s))) from rfl]
  rw [cs_allIds, work_allIds, get_ready_allIds]

/-- Iterated loop bodies preserve the id multiset. -/
theorem step_n_allIds (p : Policy) : ∀ (n : ℕ) (s : State),
    allIds (Scheduler.step_n p n s) = allIds s := by
  intro n
  induction n with
  | zero => intro s; rfl
  | succ n ih =>
      intro s
      show allIds (Scheduler.step_n p n (Scheduler.step p s)) = allIds s
      rw [ih, step_allIds]

/-- The id multiset of a freshly constructed scheduler is the input ids. -/
theorem init_allIds (specs : List (ℤ × ℤ × ℤ)) :
    allIds (Scheduler.init (mk_jobs specs))
      = ((specs.map (fun x => x.1) : List ℤ) : Multiset ℤ) := by
  unfold allIds Scheduler.init mk_jobs
  simp [List.map_map, Function.comp, Job.create]
  exact List.Perm.refl _

/-- C5: at every tick of every run of any of the four schedulers, the four
sets pending/ready/running/finished partition the jobs: their sizes sum to
the total job count and the multiset of job ids is exactly the input ids —
no dispatch or admission step duplicates or drops a job. -/
theorem job_conservation (p : Policy) (specs : List (ℤ × ℤ × ℤ)) (n : ℕ) :
    ((Scheduler.step_n p n (Scheduler.init (mk_jobs specs))).unfinished_jobs.length
      + (Scheduler.step_n p n (Scheduler.init (mk_jobs specs))).queue.length
      + (Scheduler.step_n p n (Scheduler.init (mk_jobs specs))).current_job.toList.length
      + (Scheduler.step_n p n (Scheduler.init (mk_jobs specs))).finished_jobs.length
      = specs.length) ∧
    allIds (Scheduler.step_n p n (Scheduler.init (mk_jobs specs)))
      = ((specs.map (fun x => x.1) : List ℤ) : Multiset ℤ) := by
  have hids : allIds (Scheduler.step_n p n (Scheduler.init (mk_jobs specs)))
      = ((specs.map (fun x => x.1) : List ℤ) : Multiset ℤ) := by
    rw [step_n_allIds, init_allIds]
  refine ⟨?_, hids⟩
  have hcard := congrArg Multiset.card hids
  simp only [allIds, Multiset.coe_card, List.length_map, List.length_append] at hcard
  omega

/-! ### Claim C3: turnaround is at least the service duration -/

/-- Invariant of positive-duration runs: pending jobs are untouched, jobs in
the queue or running slot have at least one unit of work left and have been
served at most `time - submitted_at - 1` units, finished jobs carry a finite
finish stamp at least `submitted_at + duration`, and the four sets partition
`total_jobs`. -/
def PosInv (s : State) : Prop :=
  (∀ j ∈ s.unfinished_jobs, j.currentDuration = j.duration ∧ 1 ≤ j.duration) ∧
  (∀ j ∈ qcJobs s, 1 ≤ j.currentDuration ∧
    j.duration - j.currentDuration ≤ s.time - j.submitted_at - 1) ∧
  (∀ j ∈ s.finished_jobs, ∃ t : ℤ, j.finished_at = (t : WithTop ℤ) ∧
    j.submitted_at + j.duration ≤ t) ∧
  (s.total_jobs = s.unfinished_jobs.length + s.queue.length
    + s.current_job.toList.length + s.finished_jobs.length)

theorem get_ready_queue (s : State) :
    (Scheduler.get_ready_jobs s).queue
      = s.queue ++ s.unfinished_jobs.filter (fun j => j.submitted_at ≤ s.time) := rfl

theorem get_ready_unfin (s : State) :
    (Scheduler.get_ready_jobs s).unfinished_jobs
      = s.unfinished_jobs.filter (fun j => s.time < j.submitted_at) := rfl

theorem work_is_finished_iff (c : Job) :
    ((Job.work c).is_finished = true) ↔ c.currentDuration - 1 ≤ 0 := by
  simp [Job.is_finished, Job.work]

theorem work_none (s : State) (h : s.current_job = none) : Scheduler.work s = s := by
  unfold Scheduler.work
  rw [h]

theorem work_some_fin (s : State) (c : Job) (h : s.current_job = some c)
    (hf : c.currentDuration - 1 ≤ 0) :
    Scheduler.work s = { s with
      finished_jobs := s.finished_jobs ++ [(c.work).finish s.time],
      current_job := none } := by
  unfold Scheduler.work
  rw [h]
  dsimp only
  rw [if_pos ((work_is_finished_iff c).mpr hf)]

theorem work_some_run (s : State) (c : Job) (h : s.current_job = some c)
    (hf : ¬ c.currentDuration - 1 ≤ 0) :
    Scheduler.work s = { s with current_job := some c.work } := by
  unfold Scheduler.work
  rw [h]
  dsimp only
  rw [if_neg (fun hh => hf ((work_is_finished_iff c).mp hh))]

theorem cs_qc_mem (p : Policy) (s : State) (j : Job) :
    j ∈ qcJobs (p.context_switch s) ↔ j ∈ qcJobs s := by
  rw [← Multiset.mem_coe, ← Multiset.mem_coe, cs_qc_multiset]

theorem qc_step_mem (p : Policy) (s : State) (j : Job)
    (hj : j ∈ qcJobs (Scheduler.step p s)) :
    j ∈ qcJobs (Scheduler.work (Scheduler.get_ready_jobs s)) := by
  have e : qcJobs (Scheduler.step p s)
      = qcJobs (p.context_switch (Scheduler.work (Scheduler.get_ready_jobs s))) := rfl
  rw [e, cs_qc_mem] at hj
  exact hj

/-- A job in the queue or slot after admission was already there, or was just
admitted from pending with its arrival due. -/
theorem qc_ready_mem (s : State) (j : Job)
    (hj : j ∈ qcJobs (Scheduler.get_ready_jobs s)) :
    j ∈ qcJobs s ∨ (j ∈ s.unfinished_jobs ∧ j.submitted_at ≤ s.time) := by
  unfold qcJobs at hj ⊢
  rw [get_ready_queue, get_ready_current] at hj
  simp only [List.mem_append] at hj ⊢
  rcases hj with (hq | hf) | hcur
  · exact Or.inl (Or.inl hq)
  · have hm := List.mem_filter.mp hf
    exact Or.inr ⟨hm.1, by simpa using hm.2⟩
  · exact Or.inl (Or.inr hcur)

theorem qc_after_ready (s : State)
    (hpend : ∀ j ∈ s.unfinished_jobs, j.currentDuration = j.duration ∧ 1 ≤ j.duration)
    (hqc : ∀ j ∈ qcJobs s, 1 ≤ j.currentDuration ∧
      j.duration - j.currentDuration ≤ s.time - j.submitted_at - 1)
    (j : Job) (hj : j ∈ qcJobs (Scheduler.get_ready_jobs s)) :
    1 ≤ j.currentDuration ∧
      j.duration - j.currentDuration ≤ s.time + 1 - j.submitted_at - 1 := by
  rcases qc_ready_mem s j hj with hold | ⟨hp, hsub⟩
  · have hh := hqc j hold
    exact ⟨hh.1, by linarith [hh.2]⟩
  · have hh := hpend j hp
    refine ⟨hh.1 ▸ hh.2, ?_⟩
    rw [hh.1]
    omega

/-- One loop iteration preserves `PosInv`. -/
theorem posInv_step (p : Policy) (s : State) (h : PosInv s) :
    PosInv (Scheduler.step p s) := by
  obtain ⟨hpend, hqc, hfin, hcount⟩ := h
  have hqc_cur : ∀ c : Job, s.current_job = some c → 1 ≤ c.currentDuration ∧
      c.duration - c.currentDuration ≤ s.time - c.submitted_at - 1 := by
    intro c hc
    exact hqc c (by simp [qcJobs, hc])
  refine ⟨?_, ?_, ?_, ?_⟩
  · intro j hj
    have e : (Scheduler.step p s).unfinished_jobs
        = (Scheduler.get_ready_jobs s).unfinished_jobs := by
      show (p.context_switch (Scheduler.work (Scheduler.get_ready_jobs s))).unfinished_jobs
          = (Scheduler.get_ready_jobs s).unfinished_jobs
      rw [cs_unfinished, work_unfinished]
    rw [e, get_ready_unfin] at hj
    exact hpend j (List.mem_filter.mp hj).1
  · intro j hj
    have hj2 := qc_step_mem p s j hj
    rw [step_time]
    cases hc : s.current_job with
    | none =>
        rw [work_none _ (by rw [get_ready_current]; exact hc)] at hj2
        exact qc_after_ready s hpend hqc j hj2
    | some c =>
        have hc1 : (Scheduler.get_ready_jobs s).current_job = some c := by
          rw [get_ready_current]; exact hc
        by_cases hf2 : c.currentDuration - 1 ≤ 0
        · rw [work_some_fin _ c hc1 hf2] at hj2
          have hj3 : j ∈ qcJobs (Scheduler.get_ready_jobs s) := by
            unfold qcJobs at hj2 ⊢
            simp only [Option.toList_none, List.append_nil] at hj2
            exact List.mem_append_left _ hj2
          exact qc_after_ready s hpend hqc j hj3
        · rw [work_some_run _ c hc1 hf2] at hj2
          unfold qcJobs at hj2
          simp only [Option.toList_some, List.mem_append, List.mem_singleton] at hj2
          rcases hj2 with hq | hcw
          · have hj3 : j ∈ qcJobs (Scheduler.get_ready_jobs s) :=
              List.mem_append_left _ hq
            exact qc_after_ready s hpend hqc j hj3
          · subst hcw
            have hcc := hqc_cur c hc
            constructor
            · show 1 ≤ c.currentDuration - 1
              omega
            · show c.duration - (c.currentDuration - 1)
                ≤ s.time + 1 - c.submitted_at - 1
              linarith [hcc.2]
  · intro j hj
    have e : (Scheduler.step p s).finished_jobs
        = (Scheduler.work (Scheduler.get_ready_jobs s)).finished_jobs := by
      show (p.context_switch (Scheduler.work (Scheduler.get_ready_jobs s))).finished_jobs
          = (Scheduler.work (Scheduler.get_ready_jobs s)).finished_jobs
      rw [cs_finished]
    rw [e] at hj
    cases hc : s.current_job with
    | none =>
        rw [work_none _ (by rw [get_ready_current]; exact hc)] at hj
        exact hfin j hj
    | some c =>
        have hc1 : (Scheduler.get_ready_jobs s).current_job = some c := by
          rw [get_ready_current]; exact hc
        by_cases hf2 : c.currentDuration - 1 ≤ 0
        · rw [work_some_fin _ c hc1 hf2] at hj
          simp only [get_ready_finished, get_ready_time, List.mem_append,
            List.mem_singleton] at hj
          rcases hj with hold | hnew
          · exact hfin j hold
          · subst hnew
            have hcc := hqc_cur c hc
            refine ⟨s.time, rfl, ?_⟩
            show c.submitted_at + c.duration ≤ s.time
            have h1 : c.currentDuration = 1 := by omega
            linarith [hcc.2]
        · rw [work_some_run _ c hc1 hf2] at hj
          exact hfin j (by simpa using hj)
  · have hS := congrArg Multiset.card (step_allIds p s)
    simp only [allIds, Multiset.coe_card, List.length_map, List.length_append] at hS
    have ht := step_total p s
    omega

/-- `PosInv` holds at construction when all durations are positive. -/
theorem posInv_init (specs : List (ℤ × ℤ × ℤ))
    (hdur : ∀ x ∈ specs, 0 < x.2.2) :
    PosInv (Scheduler.init (mk_jobs specs)) := by
  refine ⟨?_, ?_, ?_, ?_⟩
  · intro j hj
    obtain ⟨x, hx, rfl⟩ := List.mem_map.mp hj
    refine ⟨rfl, ?_⟩
    show (1 : ℤ) ≤ x.2.2
    have := hdur x hx
    omega
  · intro j hj
    simp [qcJobs, Scheduler.init] at hj
  · intro j hj
    simp [Scheduler.init] at hj
  · simp [Scheduler.init]

/-- C3: on any completed run of any of the four schedulers over a non-empty
job set with positive durations, every finished job satisfies
`finishedAt - submittedAt ≥ totalDuration`. -/
theorem turnaround_ge_duration (p : Policy) (specs : List (ℤ × ℤ × ℤ)) (n : ℕ)
    (s' : State) (_hne : specs ≠ []) (hdur : ∀ x ∈ specs, 0 < x.2.2)
    (hrun : Scheduler.run_fuel p n (Scheduler.init (mk_jobs specs)) = some s') :
    ∀ j ∈ s'.finished_jobs, ∀ t : ℤ, j.finished_at = (t : WithTop ℤ) →
      j.submitted_at + j.duration ≤ t := by
  intro j hj t ht
  have hinv := run_fuel_preserves p PosInv (posInv_step p) n _ s'
    (posInv_init specs hdur) hrun
  obtain ⟨t', ht', hle⟩ := hinv.2.2.1 j hj
  rw [ht] at ht'
  have hEq : t = t' := by exact_mod_cast ht'
  omega

/-- Witness for `turnaround_ge_duration`: job 2 of the FCFS fixture run
(arrival 1, duration 2) finished at tick 12 and indeed `1 + 2 ≤ 12`. -/
theorem turnaround_ge_duration_witness : (1 : ℤ) + 2 ≤ 12 :=
  turnaround_ge_duration Policy.fcfs [(1, 0, 10), (2, 1, 2)] 14
    (Scheduler.step_n Policy.fcfs 13 (Scheduler.init (mk_jobs [(1, 0, 10), (2, 1, 2)])))
    (by decide) (by decide) (by decide)
    { id := 2, submitted_at := 1, duration := 2, currentDuration := 0,
      finished_at := ((12 : ℤ) : WithTop ℤ) }
    (by decide) 12 rfl

/-! ### Claim C4: the run loop terminates on positive-duration inputs -/

/-- Total remaining work of a list of jobs, clamped at zero. -/
def jobsW (l : List Job) : ℕ := (l.map (fun j => j.currentDuration.toNat)).sum

/-- Number of jobs not yet finished. -/
def muU (s : State) : ℕ :=
  s.unfinished_jobs.length + s.queue.length + s.current_job.toList.length

/-- Remaining work of the jobs not yet finished. -/
def muW (s : State) : ℕ :=
  jobsW s.unfinished_jobs + jobsW s.queue + jobsW s.current_job.toList

/-- Remaining slack until each pending job is admitted. -/
def muA (s : State) : ℕ :=
  (s.unfinished_jobs.map (fun j => (j.submitted_at + 1 - s.time).toNat)).sum

/-- One when the processor idles. -/
def muC (s : State) : ℕ :=
  match s.current_job with
  | none => 1
  | some _ => 0

/-- The termination measure of the `Scheduler.run` loop. -/
def mu (s : State) : ℕ := muU s + muW s + muA s + muC s

theorem sum_map_filter_le (l : List Job) (pr : Job → Bool) (f : Job → ℕ) :
    ((l.filter pr).map f).sum ≤ (l.map f).sum := by
  induction l with
  | nil => simp
  | cons a l ih =>
      by_cases h : pr a = true <;> simp [List.filter_cons, h] <;> omega

theorem sum_map_le (l : List Job) (f g : Job → ℕ) (h : ∀ x ∈ l, f x ≤ g x) :
    (l.map f).sum ≤ (l.map g).sum := by
  induction l with
  | nil => simp
  | cons a l ih =>
      simp only [List.map_cons, List.sum_cons]
      have h1 := h a (List.mem_cons_self a l)
      have h2 := ih (fun x hx => h x (List.mem_cons_of_mem a hx))
      omega

theorem sum_map_add_length (l : List Job) (f g : Job → ℕ)
    (h : ∀ x ∈ l, g x = f x + 1) :
    (l.map g).sum = (l.map f).sum + l.length := by
  induction l with
  | nil => simp
  | cons a l ih =>
      simp only [List.map_cons, List.sum_cons, List.length_cons]
      rw [h a (List.mem_cons_self a l),
        ih (fun x hx => h x (List.mem_cons_of_mem a hx))]
      omega

theorem cs_qclen (p : Policy) (s : State) :
    (p.context_switch s).queue.length + (p.context_switch s).current_job.toList.length
      = s.queue.length + s.current_job.toList.length := by
  have h := congrArg Multiset.card (cs_qc_multiset p s)
  simpa [qcJobs, Multiset.coe_card, List.length_append] using h

theorem cs_qcW (p : Policy) (s : State) :
    jobsW (p.context_switch s).queue + jobsW (p.context_switch s).current_job.toList
      = jobsW s.queue + jobsW s.current_job.toList := by
  have h := congrArg
    (fun m : Multiset Job => (m.map (fun j => j.currentDuration.toNat)).sum)
    (cs_qc_multiset p s)
  simpa [qcJobs, Multiset.map_coe, Multiset.sum_coe, jobsW, List.map_append,
    List.sum_append] using h

theorem muC_le_one (s : State) : muC s ≤ 1 := by
  unfold muC
  cases s.current_job <;> simp

theorem muC_none (s : State) (h : s.current_job = none) : muC s = 1 := by
  unfold muC
  rw [h]

theorem muC_some (s : State) (h : s.current_job ≠ none) : muC s = 0 := by
  unfold muC
  cases hh : s.current_job
  · exact absurd hh h
  · rfl

/-- No dispatch policy ever clears an occupied running slot. -/
theorem cs_keeps_some (p : Policy) (s : State) (c : Job)
    (hc : s.current_job = some c) : (p.context_switch s).current_job ≠ none := by
  cases p <;>
    unfold Policy.context_switch FCFS.context_switch SJF.context_switch
      SRTN.context_switch RR.context_switch <;>
    cases hq : s.queue <;> simp only [hq, hc] <;> (repeat' split) <;> simp [hc]

/-- Every dispatch policy fills an empty running slot from a non-empty queue. -/
theorem cs_fills (p : Policy) (s : State) (a : Job) (t : List Job)
    (hq : s.queue = a :: t) (hc : s.current_job = none) :
    (p.context_switch s).current_job ≠ none := by
  cases p <;>
    unfold Policy.context_switch FCFS.context_switch SJF.context_switch
      SRTN.context_switch RR.context_switch <;>
    simp only [hq, hc] <;> simp

/-- Under `PosInv`, every non-final loop iteration strictly decreases `mu`. -/
theorem mu_step_lt (p : Policy) (s : State) (hinv : PosInv s)
    (hguard : s.finished_jobs.length ≠ s.total_jobs) :
    mu (Scheduler.step p s) < mu s := by
  obtain ⟨hpend, hqc, hfin, hcount⟩ := hinv
  have e_unf : (Scheduler.step p s).unfinished_jobs
      = (Scheduler.get_ready_jobs s).unfinished_jobs := by
    show (p.context_switch (Scheduler.work (Scheduler.get_ready_jobs s))).unfinished_jobs
        = (Scheduler.get_ready_jobs s).unfinished_jobs
    rw [cs_unfinished, work_unfinished]
  have hstepA : muA (Scheduler.step p s)
      = ((Scheduler.get_ready_jobs s).unfinished_jobs.map
          (fun j => (j.submitted_at + 1 - (s.time + 1)).toNat)).sum := by
    unfold muA
    rw [e_unf, step_time]
  have hA_le : muA (Scheduler.step p s) ≤ muA s := by
    rw [hstepA]
    calc ((Scheduler.get_ready_jobs s).unfinished_jobs.map
          (fun j => (j.submitted_at + 1 - (s.time + 1)).toNat)).sum
        ≤ ((Scheduler.get_ready_jobs s).unfinished_jobs.map
          (fun j => (j.submitted_at + 1 - s.time).toNat)).sum := by
          exact sum_map_le _ _ _ (fun x _ => Int.toNat_le_toNat (by omega))
      _ ≤ muA s := by
          unfold muA
          rw [get_ready_unfin]
          exact sum_map_filter_le _ _ _
  have hstepU : muU (Scheduler.step p s)
      = muU (p.context_switch (Scheduler.work (Scheduler.get_ready_jobs s))) := rfl
  have hstepW : muW (Scheduler.step p s)
      = muW (p.context_switch (Scheduler.work (Scheduler.get_ready_jobs s))) := rfl
  have hstepC : muC (Scheduler.step p s)
      = muC (p.context_switch (Scheduler.work (Scheduler.get_ready_jobs s))) := rfl
  have hU3 : muU (p.context_switch (Scheduler.work (Scheduler.get_ready_jobs s)))
      = muU (Scheduler.work (Scheduler.get_ready_jobs s)) := by
    unfold muU
    rw [cs_unfinished]
    have := cs_qclen p (Scheduler.work (Scheduler.get_ready_jobs s))
    omega
  have hW3 : muW (p.context_switch (Scheduler.work (Scheduler.get_ready_jobs s)))
      = muW (Scheduler.work (Scheduler.get_ready_jobs s)) := by
    unfold muW
    rw [cs_unfinished]
    have := cs_qcW p (Scheduler.work (Scheduler.get_ready_jobs s))
    omega
  have hrU : muU (Scheduler.get_ready_jobs s) = muU s := by
    unfold muU
    rw [get_ready_unfin, get_ready_queue, get_ready_current]
    have hperm := (filter_split_perm
      (fun j => decide (j.submitted_at ≤ s.time)) s.unfinished_jobs).length_eq
    rw [admission_filter_split]
    simp only [List.length_append] at hperm ⊢
    omega
  have hrW : muW (Scheduler.get_ready_jobs s) = muW s := by
    unfold muW jobsW
    rw [get_ready_unfin, get_ready_queue, get_ready_current]
    have hperm := ((filter_split_perm
      (fun j => decide (j.submitted_at ≤ s.time)) s.unfinished_jobs).map
        (fun j => j.currentDuration.toNat)).sum_eq
    rw [admission_filter_split]
    simp only [List.map_append, List.sum_append] at hperm ⊢
    omega
  have e_mu_t : mu (Scheduler.step p s)
      = muU (Scheduler.step p s) + muW (Scheduler.step p s)
        + muA (Scheduler.step p s) + muC (Scheduler.step p s) := rfl
  have e_mu_s : mu s = muU s + muW s + muA s + muC s := rfl
  have hC3 := muC_le_one (p.context_switch (Scheduler.work (Scheduler.get_ready_jobs s)))
  cases hc : s.current_job with
  | some c =>
      have hc1 : (Scheduler.get_ready_jobs s).current_job = some c := by
        rw [get_ready_current]; exact hc
      have hcqc := hqc c (by simp [qcJobs, hc])
      have hCs : muC s = 0 := muC_some s (by rw [hc]; simp)
      by_cases hf2 : c.currentDuration - 1 ≤ 0
      · have hw := work_some_fin (Scheduler.get_ready_jobs s) c hc1 hf2
        have hU2 : muU (Scheduler.work (Scheduler.get_ready_jobs s)) + 1
            = muU (Scheduler.get_ready_jobs s) := by
          rw [hw]
          unfold muU
          simp [hc]
        have hW2 : muW (Scheduler.work (Scheduler.get_ready_jobs s)) + 1
            ≤ muW (Scheduler.get_ready_jobs s) := by
          rw [hw]
          unfold muW jobsW
          simp [hc]
          have h1 := hcqc.1
          omega
        omega
      · have hw := work_some_run (Scheduler.get_ready_jobs s) c hc1 hf2
        have hU2 : muU (Scheduler.work (Scheduler.get_ready_jobs s))
            = muU (Scheduler.get_ready_jobs s) := by
          rw [hw]
          unfold muU
          simp [hc]
        have hW2 : muW (Scheduler.work (Scheduler.get_ready_jobs s)) + 1
            = muW (Scheduler.get_ready_jobs s) := by
          rw [hw]
          unfold muW jobsW
          simp [hc, Job.work]
          have h1 := hcqc.1
          omega
        have hCz : muC (p.context_switch (Scheduler.work (Scheduler.get_ready_jobs s))) = 0 := by
          refine muC_some _ (cs_keeps_some p _ c.work ?_)
          rw [hw]
        omega
  | none =>
      have hw : Scheduler.work (Scheduler.get_ready_jobs s)
          = Scheduler.get_ready_jobs s :=
        work_none _ (by rw [get_ready_current]; exact hc)
      have hCs : muC s = 1 := muC_none s hc
      cases hq1 : (Scheduler.get_ready_jobs s).queue with
      | cons a t =>
          have hCz : muC (p.context_switch (Scheduler.work (Scheduler.get_ready_jobs s))) = 0 := by
            refine muC_some _ ?_
            rw [hw]
            exact cs_fills p _ a t hq1 (by rw [get_ready_current]; exact hc)
          have hU2 : muU (Scheduler.work (Scheduler.get_ready_jobs s))
              = muU (Scheduler.get_ready_jobs s) := by rw [hw]
          have hW2 : muW (Scheduler.work (Scheduler.get_ready_jobs s))
              = muW (Scheduler.get_ready_jobs s) := by rw [hw]
          omega
      | nil =>
          have hq0 : s.queue = [] ∧
              s.unfinished_jobs.filter (fun j => decide (j.submitted_at ≤ s.time)) = [] := by
            have h0 := hq1
            rw [get_ready_queue] at h0
            exact List.append_eq_nil.mp h0
          have hnoadm : ∀ j ∈ s.unfinished_jobs, ¬ j.submitted_at ≤ s.time := by
            intro j hj
            have := List.filter_eq_nil_iff.mp hq0.2 j hj
            simpa using this
          have hs1unf : (Scheduler.get_ready_jobs s).unfinished_jobs
              = s.unfinished_jobs := by
            rw [get_ready_unfin]
            refine List.filter_eq_self.mpr ?_
            intro j hj
            have := hnoadm j hj
            simp
            omega
          have hpne : s.unfinished_jobs ≠ [] := by
            intro h0
            rw [h0, hq0.1, hc] at hcount
            simp at hcount
            exact hguard (by omega)
          have hlen : 1 ≤ s.unfinished_jobs.length := List.length_pos.mpr hpne
          have hAexact : muA s = muA (Scheduler.step p s) + s.unfinished_jobs.length := by
            rw [hstepA, hs1unf]
            unfold muA
            exact sum_map_add_length s.unfinished_jobs
              (fun j => (j.submitted_at + 1 - (s.time + 1)).toNat)
              (fun j => (j.submitted_at + 1 - s.time).toNat)
              (fun j hj => by have := hnoadm j hj; dsimp only; omega)
          have hU2 : muU (Scheduler.work (Scheduler.get_ready_jobs s))
              = muU (Scheduler.get_ready_jobs s) := by rw [hw]
          have hW2 : muW (Scheduler.work (Scheduler.get_ready_jobs s))
              = muW (Scheduler.get_ready_jobs s) := by rw [hw]
          omega

/-- Strong induction on `mu`: a `PosInv` state reaches the loop exit. -/
theorem run_terminates_aux (p : Policy) : ∀ (N : ℕ) (s : State), mu s ≤ N →
    PosInv s → ∃ (n : ℕ) (s' : State), Scheduler.run_fuel p n s = some s' ∧
      s'.finished_jobs.length = s'.total_jobs := by
  intro N
  induction N with
  | zero =>
      intro s hmu hinv
      by_cases hg : s.finished_jobs.length = s.total_jobs
      · exact ⟨0, s, by simp [Scheduler.run_fuel, hg], hg⟩
      · have := mu_step_lt p s hinv hg
        omega
  | succ N ih =>
      intro s hmu hinv
      by_cases hg : s.finished_jobs.length = s.total_jobs
      · exact ⟨0, s, by simp [Scheduler.run_fuel, hg], hg⟩
      · have hlt := mu_step_lt p s hinv hg
        obtain ⟨n, s', hrun, hdone⟩ := ih (Scheduler.step p s) (by omega)
          (posInv_step p s hinv)
        refine ⟨n + 1, s', ?_, hdone⟩
        unfold Scheduler.run_fuel
        simp [hg, hrun]

/-- C4: for every non-empty job set with positive durations, the `run()` loop
of each of the four schedulers terminates, ending exactly when the finished
set contains all `totalJobs` entries. -/
theorem run_terminates (p : Policy) (specs : List (ℤ × ℤ × ℤ))
    (_hne : specs ≠ []) (hdur : ∀ x ∈ specs, 0 < x.2.2) :
    ∃ (n : ℕ) (s' : State),
      Scheduler.run_fuel p n (Scheduler.init (mk_jobs specs)) = some s' ∧
      s'.finished_jobs.length = s'.total_jobs :=
  run_terminates_aux p (mu (Scheduler.init (mk_jobs specs)))
    (Scheduler.init (mk_jobs specs)) le_rfl (posInv_init specs hdur)

/-- Witness for `run_terminates` on the staggered two-job input under SRTN. -/
theorem run_terminates_witness :
    ∃ (n : ℕ) (s' : State),
      Scheduler.run_fuel Policy.srtn n
        (Scheduler.init (mk_jobs [(1, 0, 10), (2, 1, 2)])) = some s' ∧
      s'.finished_jobs.length = s'.total_jobs :=
  run_terminates Policy.srtn [(1, 0, 10), (2, 1, 2)] (by decide) (by decide)

/-! ### Claim C2, amended part: run fails only in the zero-jobs case -/

theorem run_fuel_cases (p : Policy) (n : ℕ) (s s' : State)
    (h : Scheduler.run_fuel p n s = some s') :
    (s.finished_jobs.length = s.total_jobs ∧ s' = s) ∨
    (∃ m, n = m + 1 ∧ s.finished_jobs.length ≠ s.total_jobs ∧
      Scheduler.run_fuel p m (Scheduler.step p s) = some s') := by
  cases n with
  | zero =>
      unfold Scheduler.run_fuel at h
      by_cases hg : s.finished_jobs.length = s.total_jobs
      · simp [hg] at h
        exact Or.inl ⟨hg, h.symm⟩
      · simp [hg] at h
  | succ m =>
      unfold Scheduler.run_fuel at h
      by_cases hg : s.finished_jobs.length = s.total_jobs
      · simp [hg] at h
        exact Or.inl ⟨hg, h.symm⟩
      · simp [hg] at h
        exact Or.inr ⟨m, rfl, hg, h⟩

/-- A completed run over a non-empty job set took at least one tick. -/
theorem run_nonempty_time_pos (p : Policy) (specs : List (ℤ × ℤ × ℤ))
    (hne : specs ≠ []) (n : ℕ) (s' : State)
    (hrun : Scheduler.run_fuel p n (Scheduler.init (mk_jobs specs)) = some s') :
    1 ≤ s'.time := by
  rcases run_fuel_cases p n _ s' hrun with ⟨hg, _⟩ | ⟨m, _, _, h2⟩
  · exfalso
    have h0 : (Scheduler.init (mk_jobs specs)).finished_jobs.length = 0 := rfl
    have h1 : (Scheduler.init (mk_jobs specs)).total_jobs = specs.length := by
      simp [Scheduler.init, mk_jobs]
    rw [h0, h1] at hg
    exact hne (List.length_eq_zero.mp hg.symm)
  · refine run_fuel_preserves p (fun r => 1 ≤ r.time)
      (fun r h => by show 1 ≤ (Scheduler.step p r).time; rw [step_time]; omega)
      m _ s' ?_ h2
    show 1 ≤ (Scheduler.step p (Scheduler.init (mk_jobs specs))).time
    rw [step_time]
    have h0 : (Scheduler.init (mk_jobs specs)).time = 0 := rfl
    omega

/-- The total job count never changes during a run. -/
theorem run_total_eq (p : Policy) (specs : List (ℤ × ℤ × ℤ)) (n : ℕ) (s' : State)
    (hrun : Scheduler.run_fuel p n (Scheduler.init (mk_jobs specs)) = some s') :
    s'.total_jobs = specs.length := by
  refine run_fuel_preserves p (fun r => r.total_jobs = specs.length)
    (fun r h => ?_) n _ s' ?_ hrun
  · show (Scheduler.step p r).total_jobs = specs.length
    rw [step_total]
    exact h
  · show (Scheduler.init (mk_jobs specs)).total_jobs = specs.length
    simp [Scheduler.init, mk_jobs]

/-- C2 amended: `Scheduler.__init__` validates nothing.  With an empty job
set the loop body never runs and the failure (`ZeroDivisionError`, modelled
`none`) happens inside `get_performance`; a non-positive duration is accepted
and its run completes with metrics; and for every non-empty job set a
completed run always produces metrics — `run()` fails only in the zero-jobs
case. -/
theorem run_fails_only_zero_jobs :
    (∀ p : Policy,
      Scheduler.run_fuel p 0 (Scheduler.init (mk_jobs []))
          = some (Scheduler.init (mk_jobs [])) ∧
      Scheduler.get_performance (Scheduler.init (mk_jobs [])) = none) ∧
    ((Scheduler.run_fuel Policy.fcfs 5
        (Scheduler.init (mk_jobs [(1, 0, 0)]))).bind
        Scheduler.get_performance).isSome = true ∧
    (∀ (p : Policy) (specs : List (ℤ × ℤ × ℤ)) (n : ℕ) (s' : State),
      specs ≠ [] →
      Scheduler.run_fuel p n (Scheduler.init (mk_jobs specs)) = some s' →
      ∃ m, Scheduler.get_performance s' = some m) := by
  refine ⟨fun p => ⟨rfl, by decide⟩, by decide, ?_⟩
  intro p specs n s' hne hrun
  have ht := run_nonempty_time_pos p specs hne n s' hrun
  have htot := run_total_eq p specs n s' hrun
  have hspec : specs.length ≠ 0 := fun h0 => hne (List.length_eq_zero.mp h0)
  have hcond : ¬ (s'.time = 0 ∨ s'.total_jobs = 0) := by
    push_neg
    exact ⟨by omega, by omega⟩
  have hs : (Scheduler.get_performance s').isSome = true := by
    unfold Scheduler.get_performance
    rw [if_neg hcond]
    rfl
  exact Option.isSome_iff_exists.mp hs


/-- Witness for `run_fails_only_zero_jobs` on a concrete non-empty run. -/
theorem run_fails_only_zero_jobs_witness :
    ∃ m, Scheduler.get_performance
      (Scheduler.step_n Policy.fcfs 13
        (Scheduler.init (mk_jobs [(1, 0, 10), (2, 1, 2)]))) = some m :=
  run_fails_only_zero_jobs.2.2 Policy.fcfs [(1, 0, 10), (2, 1, 2)] 14
    (Scheduler.step_n Policy.fcfs 13
      (Scheduler.init (mk_jobs [(1, 0, 10), (2, 1, 2)])))
    (by decide) (by decide)

/-! ### Claim C8: SJF mean turnaround never exceeds FCFS (simultaneous arrivals) -/

/-- The record a job ends up as when it is retired at tick `T` after being
served to exhaustion. -/
def completedJob (j : Job) (T : ℤ) : Job :=
  { j with currentDuration := 0, finished_at := (T : WithTop ℤ) }

/-- Remaining durations of a job list as fuel. -/
def sumD (l : List Job) : ℕ := (l.map (fun j => j.duration.toNat)).sum

/-- Total duration of a job list. -/
def sumDZ (l : List Job) : ℤ := (l.map Job.duration).sum

/-- Dispatch of FCFS and SJF never changes a state with a running job. -/
theorem cs_nonpreempt (p : Policy) (hp : p = Policy.fcfs ∨ p = Policy.sjf)
    (s : State) (c : Job) (hc : s.current_job = some c) :
    p.context_switch s = s := by
  rcases hp with h | h <;> subst h
  · unfold Policy.context_switch FCFS.context_switch
    cases hq : s.queue <;> simp [hq, hc]
  · unfold Policy.context_switch SJF.context_switch
    cases hq : s.queue <;> simp [hq, hc]

theorem run_fuel_done (p : Policy) (n : ℕ) (s : State)
    (hg : s.finished_jobs.length = s.total_jobs) :
    Scheduler.run_fuel p n s = some s := by
  cases n <;> simp [Scheduler.run_fuel, hg]

theorem run_fuel_succ_ne (p : Policy) (n : ℕ) (s : State)
    (hg : s.finished_jobs.length ≠ s.total_jobs) :
    Scheduler.run_fuel p (n + 1) s
      = Scheduler.run_fuel p n (Scheduler.step p s) := by
  show (if s.finished_jobs.length = s.total_jobs then some s
    else Scheduler.run_fuel p n (Scheduler.step p s)) = _
  rw [if_neg hg]

/-- With no pending jobs, admission is the identity. -/
theorem get_ready_no_pending (s : State) (hp : s.unfinished_jobs = []) :
    Scheduler.get_ready_jobs s = s := by
  obtain ⟨u, q, c, f, tot, t, x, b⟩ := s
  simp only at hp
  subst hp
  unfold Scheduler.get_ready_jobs
  simp

/-- A busy tick of a non-preemptive policy: the running job just works. -/
theorem step_nonpreempt_run (p : Policy) (hp : p = Policy.fcfs ∨ p = Policy.sjf)
    (s : State) (c : Job) (hpend : s.unfinished_jobs = [])
    (hc : s.current_job = some c) (hrun : ¬ c.currentDuration - 1 ≤ 0) :
    Scheduler.step p s
      = { s with
          current_job := some c.work,
          time := s.time + 1,
          added_jobs := false } := by
  unfold Scheduler.step
  rw [get_ready_no_pending s hpend, work_some_run s c hc hrun,
    cs_nonpreempt p hp _ c.work rfl]

/-- A retirement tick with an empty queue, non-preemptive policy. -/
theorem step_nonpreempt_finish_nil (p : Policy)
    (hp : p = Policy.fcfs ∨ p = Policy.sjf) (s : State) (c : Job)
    (hpend : s.unfinished_jobs = []) (hq : s.queue = [])
    (hc : s.current_job = some c) (hfin : c.currentDuration - 1 ≤ 0) :
    Scheduler.step p s
      = { s with
          finished_jobs := s.finished_jobs ++ [(c.work).finish s.time],
          current_job := none,
          time := s.time + 1,
          added_jobs := false } := by
  unfold Scheduler.step
  rw [get_ready_no_pending s hpend, work_some_fin s c hc hfin]
  rcases hp with h | h <;> subst h
  · unfold Policy.context_switch FCFS.context_switch
    simp only [hq]
  · unfold Policy.context_switch SJF.context_switch
    simp only [hq]

/-- A retirement tick of FCFS with a waiting queue: dequeue the head. -/
theorem step_fcfs_finish_pop (s : State) (c a : Job) (t' : List Job)
    (hpend : s.unfinished_jobs = []) (hq : s.queue = a :: t')
    (hc : s.current_job = some c) (hfin : c.currentDuration - 1 ≤ 0) :
    Scheduler.step Policy.fcfs s
      = { s with
          queue := t',
          current_job := some a,
          finished_jobs := s.finished_jobs ++ [(c.work).finish s.time],
          total_context_switches := s.total_context_switches + 1,
          time := s.time + 1,
          added_jobs := false } := by
  unfold Scheduler.step
  rw [get_ready_no_pending s hpend, work_some_fin s c hc hfin]
  unfold Policy.context_switch FCFS.context_switch
  simp only [hq]

/-- A retirement tick of SJF with a waiting queue: pick the shortest job. -/
theorem step_sjf_finish_pick (s : State) (c a : Job) (t' : List Job)
    (hpend : s.unfinished_jobs = []) (hq : s.queue = a :: t')
    (hc : s.current_job = some c) (hfin : c.currentDuration - 1 ≤ 0) :
    Scheduler.step Policy.sjf s
      = { s with
          queue := (a :: t').erase (pyMin Job.duration a t'),
          current_job := some (pyMin Job.duration a t'),
          finished_jobs := s.finished_jobs ++ [(c.work).finish s.time],
          total_context_switches := s.total_context_switches + 1,
          time := s.time + 1,
          added_jobs := false } := by
  unfold Scheduler.step
  rw [get_ready_no_pending s hpend, work_some_fin s c hc hfin]
  unfold Policy.context_switch SJF.context_switch
  simp only [hq]

/-- Finish records of a queue served back-to-back by FCFS from time `T`. -/
def fcfsSched : ℤ → List Job → List Job
  | _, [] => []
  | T, j :: js => completedJob j (T + j.duration) :: fcfsSched (T + j.duration) js

/-- The final state of an FCFS busy run: running job `c` with `k + 1` units
left at time `t`, queue `q` behind it, `fl` already finished. -/
def fcfsFinal (c : Job) (k : ℕ) (q : List Job) (fl : List Job) (t : ℤ)
    (x tot : ℕ) : State :=
  { unfinished_jobs := [],
    queue := [],
    current_job := none,
    finished_jobs := fl ++ completedJob c (t + k) :: fcfsSched (t + k) q,
    total_jobs := tot,
    time := t + k + 1 + sumDZ q,
    total_context_switches := x + q.length,
    added_jobs := false }

/-- Retiring the running job stamps it as completed at the current tick. -/
theorem work_finish_eq_completed (c : Job) (t : ℤ)
    (hc : c.currentDuration = 1) : (c.work).finish t = completedJob c t := by
  unfold Job.work Job.finish completedJob
  simp only [Job.mk.injEq, and_true, true_and]
  omega

/-- Exact characterization of an FCFS run from a busy, no-pending state. -/
theorem fcfs_busy : ∀ (q : List Job) (k : ℕ) (c : Job) (fl : List Job) (t : ℤ)
    (x tot : ℕ) (b : Bool),
    (∀ j ∈ q, j.currentDuration = j.duration ∧ 1 ≤ j.duration) →
    c.currentDuration = (k : ℤ) + 1 →
    tot = fl.length + q.length + 1 →
    Scheduler.run_fuel Policy.fcfs (k + 1 + sumD q)
      { unfinished_jobs := [], queue := q, current_job := some c,
        finished_jobs := fl, total_jobs := tot, time := t,
        total_context_switches := x, added_jobs := b }
      = some (fcfsFinal c k q fl t x tot) := by
  intro q
  induction q with
  | nil =>
      intro k
      induction k with
      | zero =>
          intro c fl t x tot b hq hc htot
          simp only [List.length_nil] at htot
          rw [show 0 + 1 + sumD ([] : List Job) = 0 + 1 from by simp [sumD]]
          rw [run_fuel_succ_ne _ _ _ (by show fl.length ≠ tot; omega)]
          rw [step_nonpreempt_finish_nil Policy.fcfs (Or.inl rfl) _ c rfl rfl rfl
            (by omega)]
          rw [run_fuel_done _ _ _
            (by show (fl ++ [(c.work).finish t]).length = tot; simp; omega)]
          rw [work_finish_eq_completed c t (by omega)]
          unfold fcfsFinal fcfsSched sumDZ
          simp
      | succ k ihk =>
          intro c fl t x tot b hq hc htot
          simp only [List.length_nil] at htot
          rw [show k + 1 + 1 + sumD ([] : List Job)
            = (k + 1 + sumD ([] : List Job)) + 1 from by omega]
          rw [run_fuel_succ_ne _ _ _ (by show fl.length ≠ tot; omega)]
          rw [step_nonpreempt_run Policy.fcfs (Or.inl rfl) _ c rfl rfl
            (by push_cast at hc; omega)]
          have hc2 : (c.work).currentDuration = (k : ℤ) + 1 := by
            show c.currentDuration - 1 = (k : ℤ) + 1
            push_cast at hc ⊢
            omega
          have hres := ihk (c.work) fl (t + 1) x tot false hq hc2
            (by simp only [List.length_nil]; omega)
          have e : fcfsFinal (c.work) k [] fl (t + 1) x tot
              = fcfsFinal c (k + 1) [] fl t x tot := by
            unfold fcfsFinal
            rw [show t + 1 + (k : ℤ) = t + (((k + 1 : ℕ)) : ℤ) from by push_cast; ring]
            rfl
          rw [← e]
          exact hres
  | cons j js ihq =>
      intro k
      induction k with
      | zero =>
          intro c fl t x tot b hq hc htot
          simp only [List.length_cons] at htot
          have hjd := hq j (List.mem_cons_self j js)
          rw [show 0 + 1 + sumD (j :: js) = (sumD (j :: js)) + 1 from by omega]
          rw [run_fuel_succ_ne _ _ _ (by show fl.length ≠ tot; omega)]
          rw [step_fcfs_finish_pop _ c j js rfl rfl rfl (by omega)]
          rw [show sumD (j :: js) = ((j.duration - 1).toNat + 1 + sumD js) from by
            have h2 := hjd.2
            simp [sumD]
            omega]
          have hk2 : j.currentDuration = (((j.duration - 1).toNat : ℕ) : ℤ) + 1 := by
            have h1 := hjd.1
            have h2 := hjd.2
            omega
          have hres := ihq ((j.duration - 1).toNat) j (fl ++ [(c.work).finish t])
            (t + 1) (x + 1) tot false
            (fun a ha => hq a (List.mem_cons_of_mem j ha)) hk2
            (by simp; omega)
          have e : fcfsFinal j ((j.duration - 1).toNat) js
              (fl ++ [(c.work).finish t]) (t + 1) (x + 1) tot
              = fcfsFinal c 0 (j :: js) fl t x tot := by
            unfold fcfsFinal
            rw [work_finish_eq_completed c t (by omega)]
            rw [show t + 1 + (((j.duration - 1).toNat : ℕ) : ℤ)
              = t + ((0 : ℕ) : ℤ) + j.duration from by
                have h2 := hjd.2
                push_cast
                omega]
            simp only [fcfsSched]
            simp only [State.mk.injEq, and_true, true_and]
            refine ⟨?_, ?_, ?_⟩
            · rw [show t + ((0 : ℕ) : ℤ) = t from by push_cast; ring]
              rw [List.append_assoc, List.singleton_append]
            · show t + ((0 : ℕ) : ℤ) + j.duration + 1 + sumDZ js
                = t + ((0 : ℕ) : ℤ) + 1 + sumDZ (j :: js)
              simp [sumDZ]
              ring
            · simp only [List.length_cons]
              omega
          rw [← e]
          exact hres
      | succ k ihk =>
          intro c fl t x tot b hq hc htot
          simp only [List.length_cons] at htot
          rw [show k + 1 + 1 + sumD (j :: js)
            = (k + 1 + sumD (j :: js)) + 1 from by omega]
          rw [run_fuel_succ_ne _ _ _ (by show fl.length ≠ tot; omega)]
          rw [step_nonpreempt_run Policy.fcfs (Or.inl rfl) _ c rfl rfl
            (by push_cast at hc; omega)]
          have hc2 : (c.work).currentDuration = (k : ℤ) + 1 := by
            show c.currentDuration - 1 = (k : ℤ) + 1
            push_cast at hc ⊢
            omega
          have hres := ihk (c.work) fl (t + 1) x tot false hq hc2
            (by simp only [List.length_cons]; omega)
          have e : fcfsFinal (c.work) k (j :: js) fl (t + 1) x tot
              = fcfsFinal c (k + 1) (j :: js) fl t x tot := by
            unfold fcfsFinal
            rw [show t + 1 + (k : ℤ) = t + (((k + 1 : ℕ)) : ℤ) from by push_cast; ring]
            rfl
          rw [← e]
          exact hres

/-- Finish records of a queue served by SJF (shortest total duration first,
ties to the earlier job) from time `T`. -/
def sjfSched (T : ℤ) (q : List Job) : List Job :=
  match q with
  | [] => []
  | a :: t =>
      completedJob (pyMin Job.duration a t) (T + (pyMin Job.duration a t).duration)
        :: sjfSched (T + (pyMin Job.duration a t).duration)
            ((a :: t).erase (pyMin Job.duration a t))
termination_by q.length
decreasing_by
  rw [List.length_erase_of_mem (pyMin_mem Job.duration t a)]
  simp

/-- The final state of an SJF busy run. -/
def sjfFinal (c : Job) (k : ℕ) (q : List Job) (fl : List Job) (t : ℤ)
    (x tot : ℕ) : State :=
  { unfinished_jobs := [],
    queue := [],
    current_job := none,
    finished_jobs := fl ++ completedJob c (t + k) :: sjfSched (t + k) q,
    total_jobs := tot,
    time := t + k + 1 + sumDZ q,
    total_context_switches := x + q.length,
    added_jobs := false }

/-- Exact characterization of an SJF run from a busy, no-pending state. -/
theorem sjf_busy : ∀ (n : ℕ) (q : List Job), q.length = n →
    ∀ (k : ℕ) (c : Job) (fl : List Job) (t : ℤ) (x tot : ℕ) (b : Bool),
    (∀ j ∈ q, j.currentDuration = j.duration ∧ 1 ≤ j.duration) →
    c.currentDuration = (k : ℤ) + 1 →
    tot = fl.length + q.length + 1 →
    Scheduler.run_fuel Policy.sjf (k + 1 + sumD q)
      { unfinished_jobs := [], queue := q, current_job := some c,
        finished_jobs := fl, total_jobs := tot, time := t,
        total_context_switches := x, added_jobs := b }
      = some (sjfFinal c k q fl t x tot) := by
  intro n
  induction n using Nat.strong_induction_on with
  | _ n ihn =>
  intro q hn k
  induction k with
  | zero =>
      intro c fl t x tot b hq hc htot
      cases q with
      | nil =>
          simp only [List.length_nil] at htot
          rw [show 0 + 1 + sumD ([] : List Job) = 0 + 1 from by simp [sumD]]
          rw [run_fuel_succ_ne _ _ _ (by show fl.length ≠ tot; omega)]
          rw [step_nonpreempt_finish_nil Policy.sjf (Or.inr rfl) _ c rfl rfl rfl
            (by omega)]
          rw [run_fuel_done _ _ _
            (by show (fl ++ [(c.work).finish t]).length = tot; simp; omega)]
          rw [work_finish_eq_completed c t (by omega)]
          unfold sjfFinal sumDZ
          simp [sjfSched]
      | cons a t2 =>
          simp only [List.length_cons] at htot hn
          have hm : pyMin Job.duration a t2 ∈ a :: t2 := pyMin_mem _ t2 a
          have hmd := hq _ hm
          have hperm := List.perm_cons_erase hm
          rw [show 0 + 1 + sumD (a :: t2) = (sumD (a :: t2)) + 1 from by omega]
          rw [run_fuel_succ_ne _ _ _ (by show fl.length ≠ tot; omega)]
          rw [step_sjf_finish_pick _ c a t2 rfl rfl rfl (by omega)]
          have hsum : sumD (a :: t2)
              = ((pyMin Job.duration a t2).duration - 1).toNat + 1
                + sumD ((a :: t2).erase (pyMin Job.duration a t2)) := by
            have h1 : sumD (a :: t2) = sumD (pyMin Job.duration a t2
                :: (a :: t2).erase (pyMin Job.duration a t2)) := by
              unfold sumD
              exact (hperm.map _).sum_eq
            rw [h1]
            have h2 := hmd.2
            simp [sumD]
            omega
          rw [hsum]
          have hsumZ : sumDZ (a :: t2)
              = (pyMin Job.duration a t2).duration
                + sumDZ ((a :: t2).erase (pyMin Job.duration a t2)) := by
            have h1 : sumDZ (a :: t2) = sumDZ (pyMin Job.duration a t2
                :: (a :: t2).erase (pyMin Job.duration a t2)) := by
              unfold sumDZ
              exact (hperm.map _).sum_eq
            rw [h1]
            simp [sumDZ]
          have hlen : ((a :: t2).erase (pyMin Job.duration a t2)).length
              = t2.length := by
            rw [List.length_erase_of_mem hm]
            simp
          have hk2 : (pyMin Job.duration a t2).currentDuration
              = ((((pyMin Job.duration a t2).duration - 1).toNat : ℕ) : ℤ) + 1 := by
            have h1 := hmd.1
            have h2 := hmd.2
            omega
          have hres := ihn t2.length (by omega)
            ((a :: t2).erase (pyMin Job.duration a t2)) hlen
            (((pyMin Job.duration a t2).duration - 1).toNat)
            (pyMin Job.duration a t2) (fl ++ [(c.work).finish t]) (t + 1)
            (x + 1) tot false
            (fun a2 ha2 => hq a2 (List.mem_of_mem_erase ha2)) hk2
            (by simp only [List.length_append, List.length_cons,
              List.length_nil, hlen]; omega)
          have e : sjfFinal (pyMin Job.duration a t2)
              (((pyMin Job.duration a t2).duration - 1).toNat)
              ((a :: t2).erase (pyMin Job.duration a t2))
              (fl ++ [(c.work).finish t]) (t + 1) (x + 1) tot
              = sjfFinal c 0 (a :: t2) fl t x tot := by
            unfold sjfFinal
            rw [work_finish_eq_completed c t (by omega)]
            rw [show t + 1 + ((((pyMin Job.duration a t2).duration - 1).toNat : ℕ) : ℤ)
              = t + ((0 : ℕ) : ℤ) + (pyMin Job.duration a t2).duration from by
                have h2 := hmd.2
                omega]
            conv_rhs => rw [show sjfSched (t + ((0 : ℕ) : ℤ)) (a :: t2)
              = completedJob (pyMin Job.duration a t2)
                  (t + ((0 : ℕ) : ℤ) + (pyMin Job.duration a t2).duration)
                :: sjfSched (t + ((0 : ℕ) : ℤ) + (pyMin Job.duration a t2).duration)
                    ((a :: t2).erase (pyMin Job.duration a t2)) from by
                rw [sjfSched]]
            simp only [State.mk.injEq, and_true, true_and]
            refine ⟨?_, ?_, ?_⟩
            · rw [show t + ((0 : ℕ) : ℤ) = t from by push_cast; ring]
              rw [List.append_assoc, List.singleton_append]
            · rw [hsumZ]
              push_cast
              ring
            · simp only [List.length_cons, hlen]
              omega
          rw [← e]
          exact hres
  | succ k ihk =>
      intro c fl t x tot b hq hc htot
      rw [show k + 1 + 1 + sumD q = (k + 1 + sumD q) + 1 from by omega]
      rw [run_fuel_succ_ne _ _ _ (by show fl.length ≠ tot; omega)]
      rw [step_nonpreempt_run Policy.sjf (Or.inr rfl) _ c rfl rfl
        (by push_cast at hc; omega)]
      have hc2 : (c.work).currentDuration = (k : ℤ) + 1 := by
        show c.currentDuration - 1 = (k : ℤ) + 1
        push_cast at hc ⊢
        omega
      have hres := ihk (c.work) fl (t + 1) x tot false hq hc2 htot
      have e : sjfFinal (c.work) k q fl (t + 1) x tot
          = sjfFinal c (k + 1) q fl t x tot := by
        unfold sjfFinal
        rw [show t + 1 + (k : ℤ) = t + (((k + 1 : ℕ)) : ℤ) from by push_cast; ring]
        rfl
      rw [← e]
      exact hres

/-- Sum of the finish times of a queue served back-to-back from time `T` in
list order. -/
def schedSumJobs : ℤ → List Job → ℤ
  | _, [] => 0
  | T, j :: js => (T + j.duration) + schedSumJobs (T + j.duration) js

/-- Sum of the finish times of a queue served shortest-duration-first from
time `T`. -/
def sjfSumJobs (T : ℤ) (q : List Job) : ℤ :=
  match q with
  | [] => 0
  | a :: t =>
      (T + (pyMin Job.duration a t).duration)
        + sjfSumJobs (T + (pyMin Job.duration a t).duration)
            ((a :: t).erase (pyMin Job.duration a t))
termination_by q.length
decreasing_by
  rw [List.length_erase_of_mem (pyMin_mem Job.duration t a)]
  simp

/-- Turnaround sum of an FCFS tail schedule over zero-arrival jobs. -/
theorem fcfsSched_turn_sum : ∀ (q : List Job) (T : ℤ),
    (∀ j ∈ q, j.submitted_at = 0) →
    ((fcfsSched T q).map Job.getTurnaround).sum
      = ((schedSumJobs T q : ℤ) : WithTop ℤ) := by
  intro q
  induction q with
  | nil => intro T h; simp [fcfsSched, schedSumJobs]
  | cons j js ih =>
      intro T h
      simp only [fcfsSched, List.map_cons, List.sum_cons, schedSumJobs]
      rw [ih _ (fun x hx => h x (List.mem_cons_of_mem j hx))]
      have hsub := h j (List.mem_cons_self j js)
      unfold Job.getTurnaround completedJob
      simp only [WithTop.map_coe, hsub, sub_zero]
      rw [← WithTop.coe_add]

/-- Turnaround sum of an SJF tail schedule over zero-arrival jobs. -/
theorem sjfSched_turn_sum : ∀ (n : ℕ) (q : List Job), q.length = n → ∀ (T : ℤ),
    (∀ j ∈ q, j.submitted_at = 0) →
    ((sjfSched T q).map Job.getTurnaround).sum
      = ((sjfSumJobs T q : ℤ) : WithTop ℤ) := by
  intro n
  induction n using Nat.strong_induction_on with
  | _ n ihn =>
  intro q hn T h
  cases q with
  | nil => simp [sjfSched, sjfSumJobs]
  | cons a t =>
      simp only [List.length_cons] at hn
      have hm : pyMin Job.duration a t ∈ a :: t := pyMin_mem _ t a
      have hlen : ((a :: t).erase (pyMin Job.duration a t)).length = t.length := by
        rw [List.length_erase_of_mem hm]
        simp
      rw [sjfSched, sjfSumJobs]
      simp only [List.map_cons, List.sum_cons]
      rw [ihn t.length (by omega) _ hlen _
        (fun x hx => h x (List.mem_of_mem_erase hx))]
      have hsub := h _ hm
      unfold Job.getTurnaround completedJob
      simp only [WithTop.map_coe, hsub, sub_zero]
      rw [← WithTop.coe_add]

/-- Serving the same queue `T` later shifts every finish time by `T`. -/
theorem schedSumJobs_shift : ∀ (q : List Job) (T : ℤ),
    schedSumJobs T q = q.length * T + schedSumJobs 0 q := by
  intro q
  induction q with
  | nil => intro T; simp [schedSumJobs]
  | cons j js ih =>
      intro T
      simp only [schedSumJobs, List.length_cons]
      rw [ih (T + j.duration), ih (0 + j.duration)]
      push_cast
      ring

/-- The SJF analogue of `schedSumJobs_shift`. -/
theorem sjfSumJobs_shift : ∀ (n : ℕ) (q : List Job), q.length = n → ∀ (T : ℤ),
    sjfSumJobs T q = q.length * T + sjfSumJobs 0 q := by
  intro n
  induction n using Nat.strong_induction_on with
  | _ n ihn =>
  intro q hn T
  cases q with
  | nil => simp [sjfSumJobs]
  | cons a t =>
      simp only [List.length_cons] at hn
      have hm : pyMin Job.duration a t ∈ a :: t := pyMin_mem _ t a
      have hlen : ((a :: t).erase (pyMin Job.duration a t)).length = t.length := by
        rw [List.length_erase_of_mem hm]
        simp
      rw [sjfSumJobs, sjfSumJobs]
      rw [ihn t.length (by omega) _ hlen (T + (pyMin Job.duration a t).duration),
        ihn t.length (by omega) _ hlen (0 + (pyMin Job.duration a t).duration)]
      rw [hlen]
      simp only [List.length_cons]
      push_cast
      ring

/-- Moving the shortest job of a queue to the front does not increase the
sum of back-to-back finish times. -/
theorem schedSum_min_front : ∀ (t : List Job) (a : Job),
    ((t.length + 1 : ℕ) : ℤ) * (pyMin Job.duration a t).duration
      + schedSumJobs 0 ((a :: t).erase (pyMin Job.duration a t))
    ≤ schedSumJobs 0 (a :: t) := by
  intro t
  induction t with
  | nil =>
      intro a
      simp [pyMin, schedSumJobs]
  | cons b t2 ih =>
      intro a
      by_cases hlt : (pyMin Job.duration b t2).duration < a.duration
      · have hm_eq : pyMin Job.duration a (b :: t2) = pyMin Job.duration b t2 := by
          show (if (pyMin Job.duration b t2).duration < a.duration
            then pyMin Job.duration b t2 else a) = pyMin Job.duration b t2
          rw [if_pos hlt]
        have hne : a ≠ pyMin Job.duration b t2 := by
          intro h0
          rw [← h0] at hlt
          exact lt_irrefl _ hlt
        have herase : (a :: b :: t2).erase (pyMin Job.duration b t2)
            = a :: ((b :: t2).erase (pyMin Job.duration b t2)) :=
          List.erase_cons_tail (by simp [hne])
        have hm2 : pyMin Job.duration b t2 ∈ b :: t2 := pyMin_mem _ t2 b
        have hlen : ((b :: t2).erase (pyMin Job.duration b t2)).length
            = t2.length := by
          rw [List.length_erase_of_mem hm2]
          simp
        rw [hm_eq, herase]
        have hIH := ih b
        rw [show schedSumJobs 0 (a :: (b :: t2).erase (pyMin Job.duration b t2))
            = (0 + a.duration) + schedSumJobs (0 + a.duration)
                ((b :: t2).erase (pyMin Job.duration b t2)) from rfl]
        rw [show schedSumJobs 0 (a :: b :: t2)
            = (0 + a.duration) + schedSumJobs (0 + a.duration) (b :: t2) from rfl]
        rw [schedSumJobs_shift ((b :: t2).erase (pyMin Job.duration b t2))
          (0 + a.duration), schedSumJobs_shift (b :: t2) (0 + a.duration)]
        rw [hlen]
        simp only [List.length_cons] at hIH ⊢
        push_cast at hIH ⊢
        nlinarith [hIH, hlt,
          mul_le_mul_of_nonneg_left (le_of_lt hlt)
            (show (0 : ℤ) ≤ (t2.length : ℤ) by positivity)]
      · have hm_eq : pyMin Job.duration a (b :: t2) = a := by
          show (if (pyMin Job.duration b t2).duration < a.duration
            then pyMin Job.duration b t2 else a) = a
          rw [if_neg hlt]
        rw [hm_eq, List.erase_cons_head]
        rw [show schedSumJobs 0 (a :: b :: t2)
            = (0 + a.duration) + schedSumJobs (0 + a.duration) (b :: t2) from rfl]
        rw [schedSumJobs_shift (b :: t2) (0 + a.duration)]
        simp only [List.length_cons]
        push_cast
        nlinarith []

/-- The rearrangement inequality for this scheduler: shortest-first service
minimizes the sum of finish times. -/
theorem sjfSum_le_schedSum : ∀ (n : ℕ) (q : List Job), q.length = n →
    sjfSumJobs 0 q ≤ schedSumJobs 0 q := by
  intro n
  induction n using Nat.strong_induction_on with
  | _ n ihn =>
  intro q hn
  cases q with
  | nil => simp [sjfSumJobs, schedSumJobs]
  | cons a t =>
      simp only [List.length_cons] at hn
      have hm : pyMin Job.duration a t ∈ a :: t := pyMin_mem _ t a
      have hlen : ((a :: t).erase (pyMin Job.duration a t)).length = t.length := by
        rw [List.length_erase_of_mem hm]
        simp
      rw [sjfSumJobs]
      rw [sjfSumJobs_shift t.length _ hlen (0 + (pyMin Job.duration a t).duration)]
      have hIH := ihn t.length (by omega) ((a :: t).erase (pyMin Job.duration a t)) hlen
      have hM := schedSum_min_front t a
      rw [hlen]
      push_cast at hM ⊢
      nlinarith [hIH, hM]

/-- Jobs built from a duration list, all submitted at tick 0. -/
def jobs0 (ds : List ℤ) : List Job := ds.map (fun d => Job.create 0 0 d)

theorem sumDZ_nonneg (q : List Job) (h : ∀ j ∈ q, 1 ≤ j.duration) :
    0 ≤ sumDZ q := by
  induction q with
  | nil => simp [sumDZ]
  | cons a t ih =>
      have h1 := h a (List.mem_cons_self a t)
      have h2 := ih (fun x hx => h x (List.mem_cons_of_mem a hx))
      unfold sumDZ at h2 ⊢
      simp only [List.map_cons, List.sum_cons]
      omega

/-- Admission at tick 0 moves an all-zero-arrival job set wholly into the
queue. -/
theorem ready_init_all_zero (js : List Job) (hne : js ≠ [])
    (hsub : ∀ j ∈ js, j.submitted_at = 0) :
    Scheduler.get_ready_jobs (Scheduler.init js)
      = { unfinished_jobs := [], queue := js, current_job := none,
          finished_jobs := [], total_jobs := js.length, time := 0,
          total_context_switches := 0, added_jobs := true } := by
  unfold Scheduler.init Scheduler.get_ready_jobs
  dsimp only
  have h1 : js.filter (fun j => decide (j.submitted_at ≤ (0 : ℤ))) = js :=
    List.filter_eq_self.mpr (fun j hj => by simp [hsub j hj])
  have h2 : js.filter (fun j => decide ((0 : ℤ) < j.submitted_at)) = [] :=
    List.filter_eq_nil_iff.mpr (fun j hj => by simp [hsub j hj])
  rw [h1, h2]
  simp [List.isEmpty_eq_false.mpr hne]

/-- The first tick of FCFS on an all-zero-arrival job set dispatches the
head job. -/
theorem step_fcfs_init (a : Job) (rest : List Job)
    (hsub : ∀ j ∈ a :: rest, j.submitted_at = 0) :
    Scheduler.step Policy.fcfs (Scheduler.init (a :: rest))
      = { unfinished_jobs := [], queue := rest, current_job := some a,
          finished_jobs := [], total_jobs := (a :: rest).length, time := 1,
          total_context_switches := 1, added_jobs := false } := by
  unfold Scheduler.step
  rw [ready_init_all_zero (a :: rest) (by simp) hsub]
  rw [work_none _ rfl]
  unfold Policy.context_switch FCFS.context_switch
  dsimp only
  norm_num

/-- The first tick of SJF on an all-zero-arrival job set dispatches the
shortest job. -/
theorem step_sjf_init (a : Job) (rest : List Job)
    (hsub : ∀ j ∈ a :: rest, j.submitted_at = 0) :
    Scheduler.step Policy.sjf (Scheduler.init (a :: rest))
      = { unfinished_jobs := [],
          queue := (a :: rest).erase (pyMin Job.duration a rest),
          current_job := some (pyMin Job.duration a rest),
          finished_jobs := [], total_jobs := (a :: rest).length, time := 1,
          total_context_switches := 1, added_jobs := false } := by
  unfold Scheduler.step
  rw [ready_init_all_zero (a :: rest) (by simp) hsub]
  rw [work_none _ rfl]
  unfold Policy.context_switch SJF.context_switch
  dsimp only
  norm_num

/-- C8: for jobs all arriving at tick 0 with positive durations, the SJF mean
turnaround never exceeds the FCFS mean turnaround on the same job set; on
durations `[5, 2, 8, 1]` FCFS yields mean turnaround `43/4 = 10.75` and SJF
yields `7.0`. -/
theorem sjf_mean_le_fcfs_mean :
    (∀ ds : List ℤ, ds ≠ [] → (∀ x ∈ ds, 1 ≤ x) →
      ∃ (n₁ n₂ : ℕ) (s₁ s₂ : State) (m₁ m₂ : PerformanceMetric),
        Scheduler.run_fuel Policy.fcfs n₁ (Scheduler.init (jobs0 ds)) = some s₁ ∧
        Scheduler.run_fuel Policy.sjf n₂ (Scheduler.init (jobs0 ds)) = some s₂ ∧
        Scheduler.get_performance s₁ = some m₁ ∧
        Scheduler.get_performance s₂ = some m₂ ∧
        m₂.turnaround ≤ m₁.turnaround) ∧
    ((Scheduler.run_fuel Policy.fcfs 17 (Scheduler.init (jobs0 [5, 2, 8, 1]))).bind
        Scheduler.get_performance).map PerformanceMetric.turnaround
      = some (((43 / 4 : ℚ)) : WithTop ℚ) ∧
    ((Scheduler.run_fuel Policy.sjf 17 (Scheduler.init (jobs0 [5, 2, 8, 1]))).bind
        Scheduler.get_performance).map PerformanceMetric.turnaround
      = some (((7 : ℚ)) : WithTop ℚ) := by
  refine ⟨?_, ?_, ?_⟩
  · intro ds hne hds
    obtain ⟨d, ds', rfl⟩ := List.exists_cons_of_ne_nil hne
    have hd : 1 ≤ d := hds d (List.mem_cons_self d ds')
    have hds' : ∀ x ∈ ds', 1 ≤ x := fun x hx => hds x (List.mem_cons_of_mem d hx)
    have hsub : ∀ j ∈ Job.create 0 0 d :: jobs0 ds', j.submitted_at = 0 := by
      intro j hj
      rcases List.mem_cons.mp hj with h | h
      · rw [h]
        rfl
      · obtain ⟨x, hx, rfl⟩ := List.mem_map.mp h
        rfl
    have hqall : ∀ j ∈ Job.create 0 0 d :: jobs0 ds',
        j.currentDuration = j.duration ∧ 1 ≤ j.duration := by
      intro j hj
      rcases List.mem_cons.mp hj with h | h
      · rw [h]
        exact ⟨rfl, hd⟩
      · obtain ⟨x, hx, rfl⟩ := List.mem_map.mp h
        exact ⟨rfl, hds' x hx⟩
    have hq : ∀ j ∈ jobs0 ds', j.currentDuration = j.duration ∧ 1 ≤ j.duration :=
      fun j hj => hqall j (List.mem_cons_of_mem _ hj)
    have hdz := sumDZ_nonneg (jobs0 ds') (fun j hj => (hq j hj).2)
    -- the FCFS run
    have hrunF : Scheduler.run_fuel Policy.fcfs
        (1 + ((d - 1).toNat + 1 + sumD (jobs0 ds')))
        (Scheduler.init (jobs0 (d :: ds')))
        = some (fcfsFinal (Job.create 0 0 d) ((d - 1).toNat) (jobs0 ds') [] 1 1
            ((Job.create 0 0 d :: jobs0 ds').length)) := by
      show Scheduler.run_fuel Policy.fcfs _
        (Scheduler.init (Job.create 0 0 d :: jobs0 ds')) = _
      rw [show 1 + ((d - 1).toNat + 1 + sumD (jobs0 ds'))
        = ((d - 1).toNat + 1 + sumD (jobs0 ds')) + 1 from by omega]
      rw [run_fuel_succ_ne _ _ _ (by
        show ([] : List Job).length ≠ (Job.create 0 0 d :: jobs0 ds').length
        simp)]
      rw [step_fcfs_init _ _ hsub]
      exact fcfs_busy (jobs0 ds') ((d - 1).toNat) (Job.create 0 0 d) [] 1 1
        ((Job.create 0 0 d :: jobs0 ds').length) false hq
        (by show d = (((d - 1).toNat : ℕ) : ℤ) + 1; omega)
        (by simp [List.length_cons])
    -- the SJF run
    have hmmem : pyMin Job.duration (Job.create 0 0 d) (jobs0 ds')
        ∈ Job.create 0 0 d :: jobs0 ds' := pyMin_mem _ _ _
    have hmq := hqall _ hmmem
    have hmsub := hsub _ hmmem
    have hlenE : ((Job.create 0 0 d :: jobs0 ds').erase
        (pyMin Job.duration (Job.create 0 0 d) (jobs0 ds'))).length
        = (jobs0 ds').length := by
      rw [List.length_erase_of_mem hmmem]
      simp
    have hqE : ∀ j ∈ (Job.create 0 0 d :: jobs0 ds').erase
        (pyMin Job.duration (Job.create 0 0 d) (jobs0 ds')),
        j.currentDuration = j.duration ∧ 1 ≤ j.duration :=
      fun j hj => hqall j (List.mem_of_mem_erase hj)
    have hsubE : ∀ j ∈ (Job.create 0 0 d :: jobs0 ds').erase
        (pyMin Job.duration (Job.create 0 0 d) (jobs0 ds')),
        j.submitted_at = 0 :=
      fun j hj => hsub j (List.mem_of_mem_erase hj)
    have hdzE := sumDZ_nonneg _ (fun j hj => (hqE j hj).2)
    have hrunS : Scheduler.run_fuel Policy.sjf
        (1 + (((pyMin Job.duration (Job.create 0 0 d) (jobs0 ds')).duration - 1).toNat
          + 1 + sumD ((Job.create 0 0 d :: jobs0 ds').erase
            (pyMin Job.duration (Job.create 0 0 d) (jobs0 ds')))))
        (Scheduler.init (jobs0 (d :: ds')))
        = some (sjfFinal (pyMin Job.duration (Job.create 0 0 d) (jobs0 ds'))
            (((pyMin Job.duration (Job.create 0 0 d) (jobs0 ds')).duration - 1).toNat)
            ((Job.create 0 0 d :: jobs0 ds').erase
              (pyMin Job.duration (Job.create 0 0 d) (jobs0 ds'))) [] 1 1
            ((Job.create 0 0 d :: jobs0 ds').length)) := by
      show Scheduler.run_fuel Policy.sjf _
        (Scheduler.init (Job.create 0 0 d :: jobs0 ds')) = _
      rw [show 1 + (((pyMin Job.duration (Job.create 0 0 d) (jobs0 ds')).duration - 1).toNat
          + 1 + sumD ((Job.create 0 0 d :: jobs0 ds').erase
            (pyMin Job.duration (Job.create 0 0 d) (jobs0 ds'))))
        = (((pyMin Job.duration (Job.create 0 0 d) (jobs0 ds')).duration - 1).toNat
          + 1 + sumD ((Job.create 0 0 d :: jobs0 ds').erase
            (pyMin Job.duration (Job.create 0 0 d) (jobs0 ds')))) + 1 from by omega]
      rw [run_fuel_succ_ne _ _ _ (by
        show ([] : List Job).length ≠ (Job.create 0 0 d :: jobs0 ds').length
        simp)]
      rw [step_sjf_init _ _ hsub]
      exact sjf_busy ((Job.create 0 0 d :: jobs0 ds').erase
          (pyMin Job.duration (Job.create 0 0 d) (jobs0 ds'))).length _ rfl
        (((pyMin Job.duration (Job.create 0 0 d) (jobs0 ds')).duration - 1).toNat)
        (pyMin Job.duration (Job.create 0 0 d) (jobs0 ds')) [] 1 1
        ((Job.create 0 0 d :: jobs0 ds').length) false hqE
        (by have h1 := hmq.1; have h2 := hmq.2; omega)
        (by simp only [List.length_nil, List.length_cons, hlenE]; omega)
    -- turnaround sums of the two final states
    have hsumF : (((fcfsFinal (Job.create 0 0 d) ((d - 1).toNat) (jobs0 ds') [] 1 1
        ((Job.create 0 0 d :: jobs0 ds').length)).finished_jobs.map
          Job.getTurnaround).sum)
        = ((schedSumJobs 0 (Job.create 0 0 d :: jobs0 ds') : ℤ) : WithTop ℤ) := by
      unfold fcfsFinal
      dsimp only
      rw [show (1 : ℤ) + (((d - 1).toNat : ℕ) : ℤ) = d from by omega]
      simp only [List.nil_append, List.map_cons, List.sum_cons]
      rw [fcfsSched_turn_sum (jobs0 ds') d
        (fun j hj => hsub j (List.mem_cons_of_mem _ hj))]
      unfold Job.getTurnaround completedJob
      simp only [WithTop.map_coe]
      rw [show (Job.create 0 0 d).submitted_at = 0 from rfl, sub_zero,
        ← WithTop.coe_add]
      congr 1
      conv_rhs => rw [show schedSumJobs 0 (Job.create 0 0 d :: jobs0 ds')
        = (0 + (Job.create 0 0 d).duration)
          + schedSumJobs (0 + (Job.create 0 0 d).duration) (jobs0 ds') from rfl]
      simp only [zero_add]
      rfl
    have hsumS : (((sjfFinal (pyMin Job.duration (Job.create 0 0 d) (jobs0 ds'))
        (((pyMin Job.duration (Job.create 0 0 d) (jobs0 ds')).duration - 1).toNat)
        ((Job.create 0 0 d :: jobs0 ds').erase
          (pyMin Job.duration (Job.create 0 0 d) (jobs0 ds'))) [] 1 1
        ((Job.create 0 0 d :: jobs0 ds').length)).finished_jobs.map
          Job.getTurnaround).sum)
        = ((sjfSumJobs 0 (Job.create 0 0 d :: jobs0 ds') : ℤ) : WithTop ℤ) := by
      unfold sjfFinal
      dsimp only
      rw [show (1 : ℤ)
        + ((((pyMin Job.duration (Job.create 0 0 d) (jobs0 ds')).duration - 1).toNat : ℕ) : ℤ)
        = (pyMin Job.duration (Job.create 0 0 d) (jobs0 ds')).duration from by
          have h2 := hmq.2
          omega]
      simp only [List.nil_append, List.map_cons, List.sum_cons]
      rw [sjfSched_turn_sum ((Job.create 0 0 d :: jobs0 ds').erase
          (pyMin Job.duration (Job.create 0 0 d) (jobs0 ds'))).length _ rfl
        (pyMin Job.duration (Job.create 0 0 d) (jobs0 ds')).duration hsubE]
      unfold Job.getTurnaround completedJob
      simp only [WithTop.map_coe]
      rw [hmsub, sub_zero, ← WithTop.coe_add]
      congr 1
      conv_rhs => rw [sjfSumJobs]
      simp only [zero_add]
    -- assemble
    have hn0 : (Job.create 0 0 d :: jobs0 ds').length ≠ 0 := by simp
    have hTF : (1 : ℤ) + (((d - 1).toNat : ℕ) : ℤ) + 1 + sumDZ (jobs0 ds') ≠ 0 := by
      omega
    have hTS : (1 : ℤ)
        + ((((pyMin Job.duration (Job.create 0 0 d) (jobs0 ds')).duration - 1).toNat : ℕ) : ℤ)
        + 1 + sumDZ ((Job.create 0 0 d :: jobs0 ds').erase
          (pyMin Job.duration (Job.create 0 0 d) (jobs0 ds'))) ≠ 0 := by
      omega
    have hperfF := get_performance_eq _ ((Job.create 0 0 d :: jobs0 ds').length)
      ((1 : ℤ) + (((d - 1).toNat : ℕ) : ℤ) + 1 + sumDZ (jobs0 ds'))
      (schedSumJobs 0 (Job.create 0 0 d :: jobs0 ds')) rfl hn0 rfl hTF hsumF
    have hperfS := get_performance_eq _ ((Job.create 0 0 d :: jobs0 ds').length)
      ((1 : ℤ)
        + ((((pyMin Job.duration (Job.create 0 0 d) (jobs0 ds')).duration - 1).toNat : ℕ) : ℤ)
        + 1 + sumDZ ((Job.create 0 0 d :: jobs0 ds').erase
          (pyMin Job.duration (Job.create 0 0 d) (jobs0 ds'))))
      (sjfSumJobs 0 (Job.create 0 0 d :: jobs0 ds')) rfl hn0 rfl hTS hsumS
    refine ⟨_, _, _, _, _, _, hrunF, hrunS, hperfF, hperfS, ?_⟩
    show (((sjfSumJobs 0 (Job.create 0 0 d :: jobs0 ds') : ℚ)
        / ((Job.create 0 0 d :: jobs0 ds').length : ℚ) : ℚ) : WithTop ℚ)
      ≤ (((schedSumJobs 0 (Job.create 0 0 d :: jobs0 ds') : ℚ)
        / ((Job.create 0 0 d :: jobs0 ds').length : ℚ) : ℚ) : WithTop ℚ)
    apply WithTop.coe_le_coe.mpr
    have hnpos : (0 : ℚ) < ((Job.create 0 0 d :: jobs0 ds').length : ℚ) := by
      exact_mod_cast Nat.pos_of_ne_zero hn0
    apply (div_le_div_iff_of_pos_right hnpos).mpr
    exact_mod_cast sjfSum_le_schedSum ((Job.create 0 0 d :: jobs0 ds').length) _ rfl
  · have hrF : Scheduler.run_fuel Policy.fcfs 17 (Scheduler.init (jobs0 [5, 2, 8, 1]))
        = some (Scheduler.step_n Policy.fcfs 17
            (Scheduler.init (jobs0 [5, 2, 8, 1]))) := by decide
    rw [hrF, Option.some_bind,
      get_performance_eq _ 4 17 43 (by decide) (by decide) (by decide) (by decide)
        (by decide)]
    norm_num
  · have hrS : Scheduler.run_fuel Policy.sjf 17 (Scheduler.init (jobs0 [5, 2, 8, 1]))
        = some (Scheduler.step_n Policy.sjf 17
            (Scheduler.init (jobs0 [5, 2, 8, 1]))) := by decide
    rw [hrS, Option.some_bind,
      get_performance_eq _ 4 17 28 (by decide) (by decide) (by decide) (by decide)
        (by decide)]
    norm_num

/-- Witness for `sjf_mean_le_fcfs_mean` on the fixture durations. -/
theorem sjf_mean_le_fcfs_mean_witness :
    ∃ (n₁ n₂ : ℕ) (s₁ s₂ : State) (m₁ m₂ : PerformanceMetric),
      Scheduler.run_fuel Policy.fcfs n₁ (Scheduler.init (jobs0 [5, 2, 8, 1]))
        = some s₁ ∧
      Scheduler.run_fuel Policy.sjf n₂ (Scheduler.init (jobs0 [5, 2, 8, 1]))
        = some s₂ ∧
      Scheduler.get_performance s₁ = some m₁ ∧
      Scheduler.get_performance s₂ = some m₂ ∧
      m₂.turnaround ≤ m₁.turnaround :=
  sjf_mean_le_fcfs_mean.1 [5, 2, 8, 1] (by decide) (by decide)

end CpuSched
